import Mathlib

/-!
Shallow embedding of parts of the reth staged-sync node: the beacon consensus
validator (crates/consensus/src/beacon/beacon_consensus.rs), the
TotalDifficulty and SenderRecovery pipeline stages
(crates/stages/src/stages/total_difficulty.rs, sender_recovery.rs), and the
p2p transactions manager (crates/net/network/src/transactions.rs), together
with proofs about them.

Machine integers are modelled as natural numbers; U256 arithmetic is taken
modulo 2 ^ 256.  Database tables are lists of key-value pairs kept in key
order, with the append-only cursor semantics of the embedded store (an
append succeeds only when the new key is strictly greater than the last key
of the table).  Fallible operations return Except values; a failed stage
execution returns the original tables, mirroring the pipeline driver which
aborts without committing the write transaction on error.
-/

/-- 256-bit unsigned integers, modelled as natural numbers; arithmetic the
source performs on U256 values is reduced modulo 2 ^ 256. -/
abbrev U256 := Nat

def U256size : Nat := 2 ^ 256

/-- Addition of U256 values (reduced modulo 2 ^ 256). -/
def uadd (a b : U256) : U256 := (a + b) % U256size

abbrev BlockNumber := Nat
abbrev TxNumber := Nat
abbrev Hash := Nat
abbrev Address := Nat
abbrev PeerId := Nat

/-- Key of the Headers and HeaderTD tables: a (block number, block hash)
pair, ordered lexicographically, which is the on-disk key order. -/
abbrev BlockNumHash := BlockNumber × Hash

/-- Lexicographic strict order on (number, hash) table keys. -/
def nhLt (a b : BlockNumHash) : Bool := a.1 < b.1 || (a.1 == b.1 && a.2 < b.2)

/-- Strict order on transaction-number table keys. -/
def txLt (a b : TxNumber) : Bool := a < b

namespace KTable

/-- Point lookup in a table (Get / seek_exact): the first entry with the
given key. -/
def get {κ V : Type} [DecidableEq κ] (t : List (κ × V)) (k : κ) : Option V :=
  (t.find? (fun e => decide (e.1 = k))).map (fun e => e.2)

/-- Whether a key may be appended: the table is empty or its last key is
strictly smaller. -/
def lastKeyOk {κ V : Type} (lt : κ → κ → Bool) (t : List (κ × V)) (k : κ) : Bool :=
  match t.getLast? with
  | none => true
  | some e => lt e.1 k

/-- Append-only cursor write: succeeds only when the new key is strictly
greater than the last key of the table (mdbx append semantics). -/
def append {κ V : Type} (lt : κ → κ → Bool) (t : List (κ × V)) (k : κ) (v : V) :
    Option (List (κ × V)) :=
  if lastKeyOk lt t k then some (t ++ [(k, v)]) else none

/-- Whether the listed keys can be appended one after another: each key is
strictly greater than its predecessor, starting from the given last key of
the table (none when the table is empty). -/
def chainAsc {κ : Type} (lt : κ → κ → Bool) : Option κ → List κ → Bool
  | _, [] => true
  | none, k :: ks => chainAsc lt (some k) ks
  | some p, k :: ks => lt p k && chainAsc lt (some k) ks

/-- The last key of a table, as an Option. -/
def lastKey {κ V : Type} (t : List (κ × V)) : Option κ :=
  t.getLast?.map (fun e => e.1)

/-- The last element of a key list, falling back to a previous last key. -/
def lastOf {κ : Type} : Option κ → List κ → Option κ
  | o, [] => o
  | _, k :: ks => lastOf (some k) ks

end KTable

/-! ## Beacon consensus validator -/

/-- Consensus validation errors raised by BeaconConsensus::validate_header
(reth_interfaces::consensus::Error, the Merge rules). -/
inductive ConsensusError
  | theMergeDifficultyIsNotZero
  | theMergeNonceIsNotZero
  | theMergeOmmerRootIsNotEmpty
  deriving DecidableEq

/-- keccak256(rlp([])), the ommer root of an empty ommer list
(reth_primitives::EMPTY_OMMER_ROOT). -/
def EMPTY_OMMER_ROOT : Hash :=
  0x1dcc4de8dec75d7aab85b567b6ccd41ad312451b948a7413f0a142fd40d49347

/-- The header fields consulted by the embedded code: block number,
difficulty, nonce and ommers hash. -/
structure Header where
  number : BlockNumber
  difficulty : U256
  nonce : Nat
  ommersHash : Hash
  deriving DecidableEq

/-- Chain configuration: the Paris (Merge) hard fork is configured by a
terminal total difficulty. -/
structure ChainSpec where
  parisTtd : U256
  deriving DecidableEq

/-- Modelled from the spec: ForkCondition::active_at_ttd for the Paris fork
(reth_primitives fork logic, not under src/); per the spec the Merge is
active at a block when its total difficulty is at least the configured TTD. -/
def active_at_ttd (spec : ChainSpec) (total_difficulty : U256) : Bool :=
  decide (spec.parisTtd ≤ total_difficulty)

/-- BeaconConsensus::validate_header: when the Paris fork is active at the
given total difficulty, the EIP-3675 checks run in order: difficulty must be
zero, nonce must be zero, the ommers hash must be the empty ommer root. -/
def validate_header (spec : ChainSpec) (header : Header) (total_difficulty : U256) :
    Except ConsensusError Unit :=
  if active_at_ttd spec total_difficulty then
    if header.difficulty ≠ 0 then Except.error ConsensusError.theMergeDifficultyIsNotZero
    else if header.nonce ≠ 0 then Except.error ConsensusError.theMergeNonceIsNotZero
    else if header.ommersHash ≠ EMPTY_OMMER_ROOT then
      Except.error ConsensusError.theMergeOmmerRootIsNotEmpty
    else Except.ok ()
  else Except.ok ()

/-- BeaconConsensus::has_block_reward: the source returns exactly the Paris
activation predicate at the given total difficulty. -/
def has_block_reward (spec : ChainSpec) (total_difficulty : U256) : Bool :=
  active_at_ttd spec total_difficulty

/-! ## Stage framework -/

/-- Database integrity errors (the subset raised by the embedded helpers). -/
inductive DatabaseIntegrityError
  | canonicalHeader (number : BlockNumber)
  | totalDifficulty (number : BlockNumber)
  | blockBody (number : BlockNumber)
  deriving DecidableEq

/-- Stage errors: database integrity errors, database (append key order)
errors, and the fatal sender recovery error
(StageError::Fatal(SenderRecoveryStageError::SenderRecovery { tx })) which
carries the offending transaction id. -/
inductive StageError
  | databaseIntegrity (e : DatabaseIntegrityError)
  | database
  | fatalSenderRecovery (tx : TxNumber)
  deriving DecidableEq

/-- Stage execution input: the progress of the previous stage
(input.previous_stage.map(|(_, num)| num)) and the progress of this stage. -/
structure ExecInput where
  previousStageProgress : Option BlockNumber
  stageProgress : Option BlockNumber
  deriving DecidableEq

/-- Stage execution output. -/
structure ExecOutput where
  done : Bool
  stageProgress : BlockNumber
  deriving DecidableEq

/-- Outcome of the range computation a stage performs before running. -/
inductive ExecAction
  | done (stageProgress : BlockNumber)
  | run (startBlock endBlock : BlockNumber) (capped : Bool)
  deriving DecidableEq

/-- Modelled from the spec: the exec_or_return! macro and the next-action
computation it expands to (crates/stages stage utilities, not under src/).
Per the spec: if previous_stage_progress ≤ stage_progress the stage returns
immediately with done = true and its current progress; otherwise it
processes the block range
(stage_progress, min(previous_stage_progress, stage_progress + commit_threshold)]
and capped records whether the commit_threshold cap was binding.  Missing
progress values default to zero (unwrap_or_default). -/
def exec_or_return (input : ExecInput) (commit_threshold : Nat) : ExecAction :=
  let prev := input.previousStageProgress.getD 0
  let progress := input.stageProgress.getD 0
  if prev ≤ progress then ExecAction.done progress
  else
    ExecAction.run (progress + 1) (min prev (progress + commit_threshold))
      (decide (progress + commit_threshold < prev))

/-- The transaction payload stored in the Transactions table; the sender
recovery stage never inspects it (recover_signer is an abstract parameter),
so it is modelled as a bare natural number. -/
abbrev Tx := Nat

/-- StoredBlockBody: the start transaction id and transaction count of a
block. -/
structure StoredBlockBody where
  startTxId : TxNumber
  txCount : Nat
  deriving DecidableEq

/-- StoredBlockBody::last_tx_index, start_tx_id + tx_count - 1 (u64
arithmetic; natural subtraction truncates at zero here, a corner where the
source would underflow). -/
def StoredBlockBody.last_tx_index (b : StoredBlockBody) : TxNumber :=
  b.startTxId + b.txCount - 1

/-- The database tables the embedded stages read and write. -/
structure Tables where
  canonicalHeaders : List (BlockNumber × Hash)
  headers : List (BlockNumHash × Header)
  headerTD : List (BlockNumHash × U256)
  blockBodies : List (BlockNumHash × StoredBlockBody)
  transactions : List (TxNumber × Tx)
  txSenders : List (TxNumber × Address)
  deriving DecidableEq

/-- Modelled from the spec: Transaction::get_block_numhash (stage database
helper, not under src/): the canonical hash for the block number paired with
the number, failing with a database integrity error when the canonical
entry is missing. -/
def get_block_numhash (t : Tables) (n : BlockNumber) : Except StageError BlockNumHash :=
  match KTable.get t.canonicalHeaders n with
  | none => Except.error (StageError.databaseIntegrity (DatabaseIntegrityError.canonicalHeader n))
  | some h => Except.ok (n, h)

/-- Modelled from the spec: Transaction::get_block_body_by_num (stage
database helper, not under src/): the block body stored under the canonical
(number, hash) key. -/
def get_block_body_by_num (t : Tables) (n : BlockNumber) : Except StageError StoredBlockBody :=
  match get_block_numhash t n with
  | Except.error e => Except.error e
  | Except.ok key =>
    match KTable.get t.blockBodies key with
    | none => Except.error (StageError.databaseIntegrity (DatabaseIntegrityError.blockBody n))
    | some b => Except.ok b

/-- Cursor walk from a start key over the Headers table: every entry from
the first key that is at least the start key onward, in cursor (key) order. -/
def walkHeaders (headers : List (BlockNumHash × Header)) (start : BlockNumHash) :
    List (BlockNumHash × Header) :=
  headers.dropWhile (fun e => nhLt e.1 start)

/-- Cursor walk_range over the Transactions table: the entries with
lo ≤ key < hi, in cursor (key) order. -/
def walk_range_tx (t : List (TxNumber × Tx)) (lo hi : TxNumber) : List (TxNumber × Tx) :=
  t.filter (fun e => decide (lo ≤ e.1) && decide (e.1 < hi))

/-! ## TotalDifficulty stage -/

namespace TotalDifficultyStage

/-- The walker loop of TotalDifficultyStage::execute: for every walked
header, the running total difficulty is increased by the header difficulty
and the result is appended to the HeaderTD table. -/
def tdLoop (td : U256) (tbl : List (BlockNumHash × U256)) :
    List (BlockNumHash × Header) → Except StageError (List (BlockNumHash × U256))
  | [] => Except.ok tbl
  | e :: rest =>
    match KTable.append nhLt tbl e.1 (uadd td e.2.difficulty) with
    | none => Except.error StageError.database
    | some tbl2 => tdLoop (uadd td e.2.difficulty) tbl2 rest

/-- TotalDifficultyStage::execute, inside the write transaction: compute the
block range, seed the running sum from the HeaderTD entry at the input
stage progress (database integrity error when missing), walk the Headers
table from the start block while the header number is at most the end
block, appending cumulative total difficulties. -/
def executeE (commit_threshold : Nat) (t : Tables) (input : ExecInput) :
    Except StageError (Tables × ExecOutput) :=
  match exec_or_return input commit_threshold with
  | ExecAction.done p => Except.ok (t, ⟨true, p⟩)
  | ExecAction.run startBlock endBlock capped =>
    match get_block_numhash t (input.stageProgress.getD 0) with
    | Except.error e => Except.error e
    | Except.ok lastHeaderKey =>
      match KTable.get t.headerTD lastHeaderKey with
      | none =>
        Except.error (StageError.databaseIntegrity
          (DatabaseIntegrityError.totalDifficulty lastHeaderKey.1))
      | some td =>
        match get_block_numhash t startBlock with
        | Except.error e => Except.error e
        | Except.ok startKey =>
          match tdLoop td t.headerTD
              ((walkHeaders t.headers startKey).takeWhile
                (fun e => decide (e.2.number ≤ endBlock))) with
          | Except.error e => Except.error e
          | Except.ok tbl => Except.ok ({ t with headerTD := tbl }, ⟨!capped, endBlock⟩)

/-- The observable effect of one execute call: on success the write
transaction is committed; on error the pipeline driver aborts without
committing, so the tables are unchanged. -/
def execute (commit_threshold : Nat) (t : Tables) (input : ExecInput) :
    Tables × Except StageError ExecOutput :=
  match executeE commit_threshold t input with
  | Except.ok (t2, out) => (t2, Except.ok out)
  | Except.error e => (t, Except.error e)

end TotalDifficultyStage

/-! ## SenderRecovery stage -/

/-- Consecutive chunks of the given size (itertools chunks); the source
panics on a zero chunk size, here a zero size behaves like size one. -/
def chunksOf {α : Type} (n : Nat) : List α → List (List α)
  | [] => []
  | a :: l => (a :: l.take (n - 1)) :: chunksOf n (l.drop (n - 1))
termination_by l => l.length
decreasing_by simp [List.length_drop]; omega

namespace SenderRecoveryStage

/-- Signer recovery over one chunk: transaction.recover_signer() for each
transaction, failing with the fatal stage error naming the transaction id.
The source folds the chunk through a parallel collect; with at most one
failing transaction in the chunk the outcome agrees with this sequential
order. -/
def recoverChunk (recover_signer : Tx → Option Address)
    (chunk : List (TxNumber × Tx)) : Except StageError (List (TxNumber × Address)) :=
  chunk.mapM (fun e =>
    match recover_signer e.2 with
    | none => Except.error (StageError.fatalSenderRecovery e.1)
    | some a => Except.ok (e.1, a))

/-- Append recovered (transaction id, sender) pairs through the append-only
cursor, in order. -/
def appendSenders (tbl : List (TxNumber × Address)) :
    List (TxNumber × Address) → Except StageError (List (TxNumber × Address))
  | [] => Except.ok tbl
  | e :: rest =>
    match KTable.append txLt tbl e.1 e.2 with
    | none => Except.error StageError.database
    | some tbl2 => appendSenders tbl2 rest

/-- The chunk loop of SenderRecoveryStage::execute: recover the signers of a
chunk, then append them to the TxSenders table, chunk after chunk. -/
def srLoop (recover_signer : Tx → Option Address) (tbl : List (TxNumber × Address)) :
    List (List (TxNumber × Tx)) → Except StageError (List (TxNumber × Address))
  | [] => Except.ok tbl
  | chunk :: rest =>
    match recoverChunk recover_signer chunk with
    | Except.error e => Except.error e
    | Except.ok recovered =>
      match appendSenders tbl recovered with
      | Except.error e => Except.error e
      | Except.ok tbl2 => srLoop recover_signer tbl2 rest

/-- SenderRecoveryStage::execute, inside the write transaction: compute the
block range, look up the start and end transaction indices from the block
bodies, return early when there is nothing to walk, otherwise walk the
Transactions table over the index range in chunks of batch_size, recovering
signers and appending them to TxSenders. -/
def executeE (recover_signer : Tx → Option Address) (batch_size : Nat)
    (commit_threshold : Nat) (t : Tables) (input : ExecInput) :
    Except StageError (Tables × ExecOutput) :=
  match exec_or_return input commit_threshold with
  | ExecAction.done p => Except.ok (t, ⟨true, p⟩)
  | ExecAction.run startBlock endBlock capped =>
    match get_block_body_by_num t startBlock with
    | Except.error e => Except.error e
    | Except.ok startBody =>
      match get_block_body_by_num t endBlock with
      | Except.error e => Except.error e
      | Except.ok endBody =>
        if endBody.last_tx_index < startBody.startTxId then
          Except.ok (t, ⟨true, endBlock⟩)
        else
          match srLoop recover_signer t.txSenders
              (chunksOf batch_size
                (walk_range_tx t.transactions startBody.startTxId
                  (endBody.last_tx_index + 1))) with
          | Except.error e => Except.error e
          | Except.ok tbl => Except.ok ({ t with txSenders := tbl }, ⟨!capped, endBlock⟩)

/-- The observable effect of one execute call: on success the write
transaction is committed; on error the pipeline driver aborts without
committing, so the tables are unchanged. -/
def execute (recover_signer : Tx → Option Address) (batch_size : Nat)
    (commit_threshold : Nat) (t : Tables) (input : ExecInput) :
    Tables × Except StageError ExecOutput :=
  match executeE recover_signer batch_size commit_threshold t input with
  | Except.ok (t2, out) => (t2, Except.ok out)
  | Except.error e => (t, Except.error e)

end SenderRecoveryStage

/-! ## Transactions manager (p2p transaction propagation) -/

/-- Cache limit of transactions to keep track of for a single peer
(PEER_TRANSACTION_CACHE_LIMIT = 1024 * 10). -/
def PEER_TRANSACTION_CACHE_LIMIT : Nat := 1024 * 10

/-- Modelled from the spec: crate::cache::LruCache (not under src/): a
bounded set of transaction hashes with least-recently-used eviction,
entries kept most recent first. -/
structure LruCache where
  entries : List Hash
  limit : Nat
  deriving DecidableEq

/-- Modelled from the spec: LruCache::insert reports whether the hash was
new and evicts the least recently used entry once the limit is exceeded. -/
def LruCache.insert (c : LruCache) (h : Hash) : LruCache × Bool :=
  if h ∈ c.entries then (c, false)
  else
    (⟨if c.limit < c.entries.length + 1 then (h :: c.entries).dropLast
      else h :: c.entries, c.limit⟩, true)

/-- LruCache::extend: insert each hash in order. -/
def LruCache.extendWith (c : LruCache) (hs : List Hash) : LruCache :=
  hs.foldl (fun acc h => (acc.insert h).1) c

/-- A signed transaction as seen by the transactions manager: its hash and
its recovered sender when ECDSA recovery succeeds
(TransactionSigned::into_ecrecovered is abstracted by the sender field). -/
structure SignedTx where
  hash : Hash
  sender : Option Address
  deriving DecidableEq

/-- Tracks a single peer: the LRU set of transaction hashes the peer is
known to have seen.  The per-session request channel is modelled by the
messages the handlers emit. -/
structure Peer where
  transactions : LruCache
  deriving DecidableEq

/-- How transactions were received (TransactionSource). -/
inductive TransactionSource
  | broadcast
  | response
  deriving DecidableEq

def TransactionSource.is_broadcast : TransactionSource → Bool
  | TransactionSource.broadcast => true
  | TransactionSource.response => false

/-- Messages the manager hands to the network or to session channels. -/
inductive Msg
  | sendTransactions (peer : PeerId) (txs : List SignedTx)
  | sendHashes (peer : PeerId) (hashes : List Hash)
  | pooledResponse (peer : PeerId) (txs : List SignedTx)
  | getPooledRequest (peer : PeerId) (hashes : List Hash)
  | reputation (peer : PeerId)
  deriving DecidableEq

/-- The observable state of the TransactionsManager, together with its
network handle sync flag (NetworkHandle::is_syncing) and the transaction
pool; poolImports models the in-flight pool import futures and
inflightRequests the in-flight GetPooledTransactions requests. -/
structure TxManager where
  syncing : Bool
  pool : List SignedTx
  peers : List (PeerId × Peer)
  transactionsByPeers : List (Hash × List PeerId)
  poolImports : List SignedTx
  inflightRequests : List (PeerId × List Hash)
  deriving DecidableEq

/-- Peers map lookup (self.peers.get_mut(&peer_id)). -/
def getPeer (st : TxManager) (p : PeerId) : Option Peer := KTable.get st.peers p

/-- Replace the entry of a peer already in the peers map. -/
def setPeer (peers : List (PeerId × Peer)) (p : PeerId) (v : Peer) :
    List (PeerId × Peer) :=
  peers.map (fun e => if e.1 = p then (p, v) else e)

/-- Replace the value of an existing key of an association table. -/
def updateEntry {κ V : Type} [DecidableEq κ] (t : List (κ × V)) (k : κ) (v : V) :
    List (κ × V) :=
  t.map (fun e => if e.1 = k then (k, v) else e)

/-- Pool::get_all: the pooled transactions with the given hashes. -/
def poolGetAll (pool : List SignedTx) (hs : List Hash) : List SignedTx :=
  hs.filterMap (fun h => pool.find? (fun tx => tx.hash == h))

/-- TransactionsManager::on_get_pooled_transactions: answered for connected
peers only; the hashes of all returned transactions are added to the peer
seen set, then the response is sent.  There is no sync-state check on this
path. -/
def on_get_pooled_transactions (st : TxManager) (peer_id : PeerId)
    (request : List Hash) : TxManager × List Msg :=
  match getPeer st peer_id with
  | none => (st, [])
  | some peer =>
    let transactions := poolGetAll st.pool request
    ({ st with peers := (setPeer st.peers peer_id
        ⟨peer.transactions.extendWith (transactions.map SignedTx.hash)⟩) },
      [Msg.pooledResponse peer_id transactions])

/-- Per-transaction accumulator of the import loop of
TransactionsManager::import_transactions. -/
structure IngestAcc where
  cache : LruCache
  byPeers : List (Hash × List PeerId)
  startedImports : List SignedTx
  hasBad : Bool
  numSeen : Nat
  deriving DecidableEq

/-- One iteration of the import loop: recover the transaction (abstracted by
the sender field), track that a broadcasting peer knows it, and either
record one more broadcasting peer for an already-tracked hash or start a new
pool import. -/
def ingestStep (peer_id : PeerId) (source : TransactionSource) (acc : IngestAcc)
    (tx : SignedTx) : IngestAcc :=
  match tx.sender with
  | none => { acc with hasBad := true }
  | some _ =>
    let ins := if source.is_broadcast then acc.cache.insert tx.hash else (acc.cache, true)
    let seen2 := if source.is_broadcast && !ins.2 then acc.numSeen + 1 else acc.numSeen
    match KTable.get acc.byPeers tx.hash with
    | some ps =>
      { acc with cache := ins.1, numSeen := seen2,
                 byPeers := updateEntry acc.byPeers tx.hash (ps ++ [peer_id]) }
    | none =>
      { acc with cache := ins.1, numSeen := seen2,
                 byPeers := acc.byPeers ++ [(tx.hash, [peer_id])],
                 startedImports := acc.startedImports ++ [tx] }

/-- TransactionsManager::import_transactions (named on_incoming_transactions
here): while syncing, incoming transactions are ignored entirely; otherwise,
for a connected peer, each transaction is recovered and queued for pool
import, and bad or already-seen transactions produce one reputation change. -/
def on_incoming_transactions (st : TxManager) (peer_id : PeerId)
    (transactions : List SignedTx) (source : TransactionSource) :
    TxManager × List Msg :=
  if st.syncing then (st, [])
  else
    match getPeer st peer_id with
    | none => (st, [])
    | some peer =>
      let acc := transactions.foldl (ingestStep peer_id source)
        ⟨peer.transactions, st.transactionsByPeers, st.poolImports, false, 0⟩
      ({ st with
          peers := setPeer st.peers peer_id ⟨acc.cache⟩,
          transactionsByPeers := acc.byPeers,
          poolImports := acc.startedImports },
        if acc.hasBad || decide (0 < acc.numSeen) then [Msg.reputation peer_id] else [])

/-- Insert each announced hash into the peer seen set, counting the hashes
that were already present. -/
def countInserts (c : LruCache) : List Hash → LruCache × Nat
  | [] => (c, 0)
  | h :: rest =>
    let ins := c.insert h
    let r := countInserts ins.1 rest
    (r.1, if ins.2 then r.2 else r.2 + 1)

/-- TransactionsManager::on_new_pooled_transaction_hashes: ignored while
syncing; otherwise all announced hashes are recorded in the peer seen set,
the hashes the pool already knows are dropped, and the remaining ones are
requested from the peer; a peer that re-announced already-seen hashes is
reported, except when the early return on an empty request fires first. -/
def on_new_pooled_transaction_hashes (st : TxManager) (peer_id : PeerId)
    (msg : List Hash) : TxManager × List Msg :=
  if st.syncing then (st, [])
  else
    match getPeer st peer_id with
    | none => (st, [])
    | some peer =>
      let r := countInserts peer.transactions msg
      let st2 := { st with peers := setPeer st.peers peer_id ⟨r.1⟩ }
      let transactions := msg.filter (fun h =>
        (st.pool.find? (fun tx => tx.hash == h)).isNone)
      if transactions.isEmpty then (st2, [])
      else
        ({ st2 with inflightRequests := st2.inflightRequests ++ [(peer_id, transactions)] },
          [Msg.getPooledRequest peer_id transactions] ++
            (if 0 < r.2 then [Msg.reputation peer_id] else []))

/-- Floor square root, modelling `(n as f64).sqrt() as usize` (exact at
these magnitudes): the largest k with k * k ≤ n. -/
def fsqrt (n : Nat) : Nat :=
  ((List.range (n + 1)).filter (fun k => decide (k * k ≤ n))).length - 1

/-- The per-peer filter of propagate_transactions: keep the transactions
whose hash is newly inserted into the peer seen set (the set is updated
while filtering, before anything is sent). -/
def filterInsert (c : LruCache) : List (Hash × SignedTx) → LruCache × List (Hash × SignedTx)
  | [] => (c, [])
  | e :: rest =>
    let ins := c.insert e.1
    let r := filterInsert ins.1 rest
    (r.1, if ins.2 then e :: r.2 else r.2)

/-- The peer loop of propagate_transactions: peers are enumerated; a peer
with a nonempty filtered list receives the full transactions when its index
is at most max_num_full and only the hashes otherwise. -/
def propagateLoop (max_num_full : Nat) :
    Nat → List (PeerId × Peer) → List (Hash × SignedTx) →
    List (PeerId × Peer) × List Msg
  | _, [], _ => ([], [])
  | idx, e :: rest, txs =>
    let fi := filterInsert e.2.transactions txs
    let msgs :=
      if fi.2.isEmpty then []
      else if max_num_full < idx then [Msg.sendHashes e.1 (fi.2.map Prod.fst)]
      else [Msg.sendTransactions e.1 (fi.2.map Prod.snd)]
    let r := propagateLoop max_num_full (idx + 1) rest txs
    ((e.1, ⟨fi.1⟩) :: r.1, msgs ++ r.2)

/-- TransactionsManager::propagate_transactions: max_num_full is the square
root of the connected peer count plus one (the source truncates an f64
square root, which agrees with fsqrt at these magnitudes); each peer
skips transactions already in its seen set, updating the set first. -/
def propagate_transactions (st : TxManager) (txs : List (Hash × SignedTx)) :
    TxManager × List Msg :=
  let r := propagateLoop (fsqrt st.peers.length + 1) 0 st.peers txs
  ({ st with peers := r.1 }, r.2)

/-- TransactionsManager::on_new_transactions: nothing is propagated while
syncing; otherwise the pooled transactions for the pending hashes are
propagated. -/
def on_new_transactions (st : TxManager) (hashes : List Hash) : TxManager × List Msg :=
  if st.syncing then (st, [])
  else
    propagate_transactions st
      ((poolGetAll st.pool hashes).map (fun tx => (tx.hash, tx)))

/-- Wire-protocol transaction events delivered by the network
(NetworkTransactionEvent). -/
inductive NetworkTransactionEvent
  | incomingTransactions (peer_id : PeerId) (msg : List SignedTx)
  | incomingPooledTransactionHashes (peer_id : PeerId) (msg : List Hash)
  | getPooledTransactions (peer_id : PeerId) (request : List Hash)
  deriving DecidableEq

/-- TransactionsManager::on_network_tx_event. -/
def on_network_tx_event (st : TxManager) (ev : NetworkTransactionEvent) :
    TxManager × List Msg :=
  match ev with
  | NetworkTransactionEvent.incomingTransactions p msg =>
    on_incoming_transactions st p msg TransactionSource.broadcast
  | NetworkTransactionEvent.incomingPooledTransactionHashes p msg =>
    on_new_pooled_transaction_hashes st p msg
  | NetworkTransactionEvent.getPooledTransactions p req =>
    on_get_pooled_transactions st p req

/-- Session events delivered by the network (NetworkEvent, the arms the
manager handles). -/
inductive NetworkEvent
  | sessionClosed (peer_id : PeerId)
  | sessionEstablished (peer_id : PeerId)
  deriving DecidableEq

/-- TransactionsManager::on_network_event: a closed session removes the
peer; an established session inserts a peer with a fresh LRU cache of the
fixed capacity and, when not syncing, announces all pooled transaction
hashes to it. -/
def on_network_event (st : TxManager) (ev : NetworkEvent) : TxManager × List Msg :=
  match ev with
  | NetworkEvent.sessionClosed p =>
    ({ st with peers := st.peers.filter (fun e => e.1 != p) }, [])
  | NetworkEvent.sessionEstablished p =>
    let st2 := { st with peers := (st.peers.filter (fun e => e.1 != p)
      ++ [(p, ⟨⟨[], PEER_TRANSACTION_CACHE_LIMIT⟩⟩)]) }
    if st.syncing then (st2, [])
    else (st2, [Msg.sendHashes p (st.pool.map SignedTx.hash)])

deriving instance DecidableEq for Except

/-! ## Concrete scenarios used as witnesses -/

/-- A fresh peer entry: an empty seen set at the fixed capacity. -/
def freshPeer : Peer := ⟨⟨[], PEER_TRANSACTION_CACHE_LIMIT⟩⟩

/-- Ten headers of difficulty one on top of a seeded head at block zero with
total difficulty 1000 (block hashes are number + 100). -/
def c1Tables : Tables :=
  { canonicalHeaders := (List.range 11).map (fun n => (n, n + 100)),
    headers := (List.range 11).map (fun n => ((n, n + 100), ⟨n, 1, 0, EMPTY_OMMER_ROOT⟩)),
    headerTD := [((0, 100), 1000)],
    blockBodies := [], transactions := [], txSenders := [] }

/-- One hundred headers of difficulty one on top of a seeded head at block
zero (block hashes equal the block number). -/
def c3Tables : Tables :=
  { canonicalHeaders := (List.range 101).map (fun n => (n, n)),
    headers := (List.range 101).map (fun n => ((n, n), ⟨n, 1, 0, EMPTY_OMMER_ROOT⟩)),
    headerTD := [((0, 0), 0)],
    blockBodies := [], transactions := [], txSenders := [] }

/-- A signer recovery function used in scenarios: recovery fails exactly on
transaction payload 99. -/
def rsDemo : Tx → Option Address :=
  fun tx => if tx == 99 then none else some (tx + 1000)

/-- Three blocks holding one, two and two transactions (ids 0..4); the
sender of transaction 0 has already been recovered in an earlier run. -/
def c4Tables : Tables :=
  { canonicalHeaders := [(0, 100), (1, 101), (2, 102)],
    headers := [], headerTD := [],
    blockBodies := [((0, 100), ⟨0, 1⟩), ((1, 101), ⟨1, 2⟩), ((2, 102), ⟨3, 2⟩)],
    transactions := [(0, 10), (1, 11), (2, 12), (3, 13), (4, 14)],
    txSenders := [(0, 1010)] }

/-- The same chain with the signature of transaction 2 corrupted (payload
99, on which rsDemo fails). -/
def c4TablesBad : Tables :=
  { c4Tables with transactions := [(0, 10), (1, 11), (2, 99), (3, 13), (4, 14)] }

/-- A manager currently syncing, with one connected peer and one pooled
transaction. -/
def c7State : TxManager :=
  ⟨true, [⟨9, some 3⟩], [(0, freshPeer)], [], [], []⟩

/-- A manager that is done syncing, with four connected peers with empty
seen sets and one pooled transaction of hash 7. -/
def c8State : TxManager :=
  ⟨false, [⟨7, some 1⟩], [(0, freshPeer), (1, freshPeer), (2, freshPeer), (3, freshPeer)],
   [], [], []⟩

/-- The HeaderTD entries the total difficulty loop appends: the running
sums of the walked header difficulties, starting from the seed. -/
def tdExtend (td : U256) : List (BlockNumHash × Header) → List (BlockNumHash × U256)
  | [] => []
  | e :: rest => (e.1, uadd td e.2.difficulty) :: tdExtend (uadd td e.2.difficulty) rest

/-- The sum of the difficulties of a walked header list. -/
def sumDifficulty (es : List (BlockNumHash × Header)) : Nat :=
  (es.map (fun e => e.2.difficulty)).sum

/-- The claimed total difficulty recurrence: walking the processed chain
from the seed key, each stored total difficulty equals the stored total
difficulty at the previous key plus the difficulty of the walked header. -/
def tdRecurrence (tbl : List (BlockNumHash × U256)) :
    BlockNumHash → List (BlockNumHash × Header) → Prop
  | _, [] => True
  | prev, e :: rest =>
    ((∃ u, KTable.get tbl prev = some u ∧
        KTable.get tbl e.1 = some (u + e.2.difficulty)) ∧
      tdRecurrence tbl e.1 rest)

/-- The bound required of every peer seen set: the fixed limit, and at most
that many entries. -/
def cacheBound (c : LruCache) : Prop :=
  c.limit = PEER_TRANSACTION_CACHE_LIMIT ∧
    c.entries.length ≤ PEER_TRANSACTION_CACHE_LIMIT

/-- The claimed manager invariant: every connected peer seen set satisfies
the bound. -/
def cacheOk (st : TxManager) : Prop :=
  ∀ e ∈ st.peers, cacheBound e.2.transactions

/-- The headers walked in the ten-header scenario. -/
def c1Es : List (BlockNumHash × Header) :=
  (List.range 10).map (fun i => ((i + 1, i + 101), ⟨i + 1, 1, 0, EMPTY_OMMER_ROOT⟩))

/-- One hundred and one canonical blocks (hashes equal the numbers) where
block 0 holds the only five transactions and blocks 1..100 are empty: every
body from block 1 on has start_tx_id 5 and tx_count 0. -/
def c3EmptyTables : Tables :=
  { canonicalHeaders := (List.range 101).map (fun n => (n, n)),
    headers := [], headerTD := [],
    blockBodies := (((0, 0), ⟨0, 5⟩) ::
      (List.range 100).map (fun n => ((n + 1, n + 1), ⟨5, 0⟩))),
    transactions := [(0, 1), (1, 2), (2, 3), (3, 4), (4, 5)],
    txSenders := [] }

/-! ## Theorems -/

/-- C5: for a header validated at a total difficulty at which the Merge is
active (total_difficulty ≥ TTD), validate_header fails with
TheMergeDifficultyIsNotZero when the difficulty is nonzero, with
TheMergeNonceIsNotZero when the difficulty is zero but the nonce is
nonzero, with TheMergeOmmerRootIsNotEmpty when only the ommers hash
differs from keccak(rlp([])), and passes when the difficulty and nonce are
zero and the ommers hash is the empty ommer root. -/
theorem validate_header_merge_rules (spec : ChainSpec) (h : Header) (td : U256)
    (httd : spec.parisTtd ≤ td) :
    (h.difficulty ≠ 0 →
      validate_header spec h td = Except.error ConsensusError.theMergeDifficultyIsNotZero) ∧
    (h.difficulty = 0 → h.nonce ≠ 0 →
      validate_header spec h td = Except.error ConsensusError.theMergeNonceIsNotZero) ∧
    (h.difficulty = 0 → h.nonce = 0 → h.ommersHash ≠ EMPTY_OMMER_ROOT →
      validate_header spec h td = Except.error ConsensusError.theMergeOmmerRootIsNotEmpty) ∧
    (h.difficulty = 0 → h.nonce = 0 → h.ommersHash = EMPTY_OMMER_ROOT →
      validate_header spec h td = Except.ok ()) := by
  refine ⟨?_, ?_, ?_, ?_⟩ <;> intros <;> simp_all [validate_header, active_at_ttd]

/-- C5 witness: with TTD 100 a post-TTD header of difficulty 7 fails with
TheMergeDifficultyIsNotZero, and a post-TTD header with zero difficulty,
zero nonce and the empty ommer root passes. -/
theorem validate_header_merge_rules_witness :
    (100 : Nat) ≤ 100 ∧
    validate_header ⟨100⟩ ⟨1, 7, 0, EMPTY_OMMER_ROOT⟩ 100
      = Except.error ConsensusError.theMergeDifficultyIsNotZero ∧
    validate_header ⟨100⟩ ⟨1, 0, 0, EMPTY_OMMER_ROOT⟩ 100 = Except.ok () :=
  ⟨by decide,
   (validate_header_merge_rules ⟨100⟩ ⟨1, 7, 0, EMPTY_OMMER_ROOT⟩ 100 (by decide)).1
     (by decide),
   (validate_header_merge_rules ⟨100⟩ ⟨1, 0, 0, EMPTY_OMMER_ROOT⟩ 100 (by decide)).2.2.2
     rfl rfl rfl⟩

/-- C2, evaluation at the failing input: with Paris TTD 100 and total
difficulties 100 and 250 (at and above the TTD) has_block_reward evaluates
to true — the source returns the Paris activation predicate itself, not its
negation, so the block reward is reported as present exactly once the
proof-of-stake transition has been crossed, where the spec requires false. -/
theorem has_block_reward_post_ttd_eval :
    has_block_reward ⟨100⟩ 100 = true ∧ has_block_reward ⟨100⟩ 250 = true := by decide

/-- C6: when the block range is nonempty and the HeaderTD seed entry at the
input stage progress is missing, TotalDifficultyStage::execute fails with
DatabaseIntegrityError::TotalDifficulty carrying that block number, and the
tables are returned unchanged: the error is raised before any append. -/
theorem td_execute_missing_seed_error (th : Nat) (t : Tables) (input : ExecInput)
    (s eb : Nat) (capped : Bool) (key : BlockNumHash)
    (hact : exec_or_return input th = ExecAction.run s eb capped)
    (hkey : get_block_numhash t (input.stageProgress.getD 0) = Except.ok key)
    (hseed : KTable.get t.headerTD key = none) :
    TotalDifficultyStage.execute th t input =
      (t, Except.error (StageError.databaseIntegrity
        (DatabaseIntegrityError.totalDifficulty key.1))) := by
  unfold TotalDifficultyStage.execute TotalDifficultyStage.executeE
  rw [hact, hkey]
  simp [hseed]

/-- C6 witness: on the ten-header chain with its seed entry removed, the
stage fails with the TotalDifficulty integrity error at block 0 and leaves
the tables unchanged. -/
theorem td_execute_missing_seed_error_witness :
    exec_or_return ⟨some 10, some 0⟩ 100 = ExecAction.run 1 10 false ∧
    get_block_numhash { c1Tables with headerTD := [] } 0 = Except.ok (0, 100) ∧
    KTable.get (Tables.headerTD { c1Tables with headerTD := [] }) (0, 100) = none ∧
    TotalDifficultyStage.execute 100 { c1Tables with headerTD := [] } ⟨some 10, some 0⟩ =
      ({ c1Tables with headerTD := [] },
        Except.error (StageError.databaseIntegrity
          (DatabaseIntegrityError.totalDifficulty 0))) :=
  ⟨by decide, by decide, by decide,
   td_execute_missing_seed_error 100 { c1Tables with headerTD := [] } ⟨some 10, some 0⟩
     1 10 false (0, 100) (by decide) (by decide) (by decide)⟩

/-- C7: while the manager is syncing, delivering an incoming transactions
broadcast or an incoming pooled-transaction-hashes announcement changes
nothing: the state (pool, pool imports, peers and their seen sets) is
untouched and no message is emitted; likewise no pending transactions from
the local pool are propagated. -/
theorem syncing_gates_ingress (st : TxManager) (p : PeerId)
    (txs : List SignedTx) (hs : List Hash) (hsync : st.syncing = true) :
    on_network_tx_event st (NetworkTransactionEvent.incomingTransactions p txs)
      = (st, []) ∧
    on_network_tx_event st (NetworkTransactionEvent.incomingPooledTransactionHashes p hs)
      = (st, []) ∧
    on_new_transactions st hs = (st, []) := by
  refine ⟨?_, ?_, ?_⟩ <;>
    simp [on_network_tx_event, on_incoming_transactions,
      on_new_pooled_transaction_hashes, on_new_transactions, hsync]

/-- C7 witness: a syncing manager with one peer and one pooled transaction
ignores a well-formed broadcast, a hash announcement and a pending-pool
notification. -/
theorem syncing_gates_ingress_witness :
    c7State.syncing = true ∧
    on_network_tx_event c7State (NetworkTransactionEvent.incomingTransactions 0 [⟨5, some 2⟩])
      = (c7State, []) ∧
    on_network_tx_event c7State (NetworkTransactionEvent.incomingPooledTransactionHashes 0 [5])
      = (c7State, []) ∧
    on_new_transactions c7State [9] = (c7State, []) :=
  ⟨rfl,
   (syncing_gates_ingress c7State 0 [⟨5, some 2⟩] [5] rfl).1,
   (syncing_gates_ingress c7State 0 [⟨5, some 2⟩] [5] rfl).2.1,
   (syncing_gates_ingress c7State 0 [⟨5, some 2⟩] [9] rfl).2.2⟩

/-- C10: an incoming GetPooledTransactions request from a connected peer is
answered from the pool whatever the sync flag is (this path has no syncing
gate): the hashes of all transactions in the response are first added to
the peer seen set and then the response is emitted; a request from an
unknown peer produces no response and changes no state. -/
theorem get_pooled_transactions_path (st : TxManager) (p : PeerId) (req : List Hash) :
    (getPeer st p = none → on_get_pooled_transactions st p req = (st, [])) ∧
    (∀ peer, getPeer st p = some peer → ∀ b : Bool,
      on_get_pooled_transactions { st with syncing := b } p req =
        ({ st with syncing := b, peers := (setPeer st.peers p
            ⟨peer.transactions.extendWith ((poolGetAll st.pool req).map SignedTx.hash)⟩) },
         [Msg.pooledResponse p (poolGetAll st.pool req)])) := by
  constructor
  · intro hnone
    simp [on_get_pooled_transactions, hnone]
  · intro peer hpeer b
    have hpeer2 : getPeer { st with syncing := b } p = some peer := hpeer
    simp [on_get_pooled_transactions, hpeer2]

/-- C10 witness: a manager with one known peer and a pool holding the
transaction of hash 7 answers a request for hashes 7 and 8 with that
transaction, under either sync flag, after recording hash 7 in the peer
seen set; the unknown peer 5 gets nothing. -/
theorem get_pooled_transactions_path_witness :
    (getPeer c8State 5 = none ∧ on_get_pooled_transactions c8State 5 [7] = (c8State, [])) ∧
    (getPeer c8State 0 = some freshPeer ∧
      on_get_pooled_transactions { c8State with syncing := true } 0 [7, 8] =
        ({ c8State with syncing := true, peers := (setPeer c8State.peers 0
            ⟨freshPeer.transactions.extendWith ((poolGetAll c8State.pool [7, 8]).map SignedTx.hash)⟩) },
         [Msg.pooledResponse 0 (poolGetAll c8State.pool [7, 8])])) :=
  ⟨⟨by decide, (get_pooled_transactions_path c8State 5 [7]).1 (by decide)⟩,
   ⟨by decide, (get_pooled_transactions_path c8State 0 [7, 8]).2 freshPeer (by decide) true⟩⟩

/-- C8, evaluation at the failing input: with four connected peers with
empty seen sets and one fresh transaction, propagate_transactions sends the
full transaction body to all four peers and a hash announcement to none,
although floor(sqrt(4)) + 1 = 3: the guard idx > max_num_full admits
max_num_full + 1 = floor(sqrt(peers)) + 2 peers. -/
theorem propagate_full_subset_eval :
    (propagate_transactions c8State [(7, ⟨7, some 1⟩)]).2 =
      [Msg.sendTransactions 0 [⟨7, some 1⟩], Msg.sendTransactions 1 [⟨7, some 1⟩],
       Msg.sendTransactions 2 [⟨7, some 1⟩], Msg.sendTransactions 3 [⟨7, some 1⟩]] ∧
    fsqrt c8State.peers.length + 1 = 3 := by decide

/-- Output law of TotalDifficultyStage::execute on a nonempty range:
whenever the call succeeds, the output is done = !capped at the range end
(the stage has a single success return point). -/
theorem td_run_output_law (th : Nat) (t : Tables) (input : ExecInput) (s e : Nat)
    (capped : Bool)
    (hact : exec_or_return input th = ExecAction.run s e capped) :
    (∃ err, (TotalDifficultyStage.execute th t input).2 = Except.error err) ∨
      (TotalDifficultyStage.execute th t input).2 = Except.ok ⟨!capped, e⟩ := by
  unfold TotalDifficultyStage.execute TotalDifficultyStage.executeE
  rw [hact]
  dsimp only
  cases h1 : get_block_numhash t (input.stageProgress.getD 0) with
  | error e1 => exact Or.inl ⟨e1, by simp⟩
  | ok k1 =>
    dsimp only
    cases h2 : KTable.get t.headerTD k1 with
    | none =>
      exact Or.inl ⟨StageError.databaseIntegrity
        (DatabaseIntegrityError.totalDifficulty k1.1), by simp⟩
    | some td0 =>
      dsimp only
      cases h3 : get_block_numhash t s with
      | error e3 => exact Or.inl ⟨e3, by simp⟩
      | ok k3 =>
        dsimp only
        cases h4 : TotalDifficultyStage.tdLoop td0 t.headerTD
            ((walkHeaders t.headers k3).takeWhile (fun x => decide (x.2.number ≤ e))) with
        | error e4 => exact Or.inl ⟨e4, by simp⟩
        | ok tbl => exact Or.inr (by simp)

/-- Output law of SenderRecoveryStage::execute on a nonempty range with
resolvable block bodies: when the transaction range is empty
(end index below start index) the stage returns early with done = true at
the range end even if the cap was binding; otherwise, whenever the call
succeeds, the output is done = !capped at the range end. -/
theorem sr_run_output_law (rs : Tx → Option Address) (bs th : Nat) (t : Tables)
    (input : ExecInput) (s e : Nat) (capped : Bool) (sb ebody : StoredBlockBody)
    (hact : exec_or_return input th = ExecAction.run s e capped)
    (hsb : get_block_body_by_num t s = Except.ok sb)
    (heb : get_block_body_by_num t e = Except.ok ebody) :
    (ebody.last_tx_index < sb.startTxId →
      SenderRecoveryStage.execute rs bs th t input = (t, Except.ok ⟨true, e⟩)) ∧
    (sb.startTxId ≤ ebody.last_tx_index →
      (∃ err, (SenderRecoveryStage.execute rs bs th t input).2 = Except.error err) ∨
        (SenderRecoveryStage.execute rs bs th t input).2 = Except.ok ⟨!capped, e⟩) := by
  constructor
  · intro hlt
    unfold SenderRecoveryStage.execute SenderRecoveryStage.executeE
    rw [hact]
    simp only [hsb, heb]
    rw [if_pos hlt]
  · intro hle
    unfold SenderRecoveryStage.execute SenderRecoveryStage.executeE
    rw [hact]
    simp only [hsb, heb]
    rw [if_neg (Nat.not_lt.mpr hle)]
    cases hl : SenderRecoveryStage.srLoop rs t.txSenders
        (chunksOf bs (walk_range_tx t.transactions sb.startTxId
          (ebody.last_tx_index + 1))) with
    | error err => exact Or.inl ⟨err, by simp⟩
    | ok tbl => exact Or.inr (by simp)

/-- C3 counterexample: with a 100-block gap and commit_threshold = 50 the
range is capped (capped = true), yet SenderRecoveryStage::execute over
blocks 1..50 that hold no transactions returns done = true at progress 50
where the claim requires done = !capped = false: done does not equal
whether the cap was binding, and the first execute of the claimed straddle
does not return done = false. -/
theorem exec_or_return_contract_counterexample :
    exec_or_return ⟨some 100, some 0⟩ 50 = ExecAction.run 1 50 true ∧
    (SenderRecoveryStage.execute rsDemo 250000 50 c3EmptyTables ⟨some 100, some 0⟩).2 =
      Except.ok ⟨true, 50⟩ ∧
    (SenderRecoveryStage.execute rsDemo 250000 50 c3EmptyTables ⟨some 100, some 0⟩).2 ≠
      Except.ok ⟨!true, 50⟩ := by decide

/-- C3 (amended): the exec_or_return contract over both stages built on it.
When previous_stage_progress ≤ stage_progress, TotalDifficulty and
SenderRecovery return immediately with done = true, their current progress,
and untouched tables.  Otherwise the computed action is exactly the range
(stage_progress, min(previous_stage_progress, stage_progress + commit_threshold)]
with capped recording whether the threshold cap was binding.
TotalDifficulty, whenever it succeeds, returns done = !capped at the range
end; SenderRecovery does so only when the range holds at least one
transaction, and returns early with done = true at the range end when the
capped range covers only empty blocks.  With a 100-block gap and
commit_threshold = 50, TotalDifficulty first returns done = false at
stage_progress + 50 and then done = true at stage_progress + 100. -/
theorem exec_or_return_contract_amended :
    (∀ (th : Nat) (t : Tables) (input : ExecInput),
      input.previousStageProgress.getD 0 ≤ input.stageProgress.getD 0 →
      TotalDifficultyStage.execute th t input =
        (t, Except.ok ⟨true, input.stageProgress.getD 0⟩)) ∧
    (∀ (rs : Tx → Option Address) (bs th : Nat) (t : Tables) (input : ExecInput),
      input.previousStageProgress.getD 0 ≤ input.stageProgress.getD 0 →
      SenderRecoveryStage.execute rs bs th t input =
        (t, Except.ok ⟨true, input.stageProgress.getD 0⟩)) ∧
    (∀ (input : ExecInput) (th : Nat),
      input.stageProgress.getD 0 < input.previousStageProgress.getD 0 →
      exec_or_return input th = ExecAction.run (input.stageProgress.getD 0 + 1)
        (min (input.previousStageProgress.getD 0) (input.stageProgress.getD 0 + th))
        (decide (input.stageProgress.getD 0 + th < input.previousStageProgress.getD 0))) ∧
    (∀ (th : Nat) (t : Tables) (input : ExecInput) (s e : Nat) (capped : Bool),
      exec_or_return input th = ExecAction.run s e capped →
      (∃ err, (TotalDifficultyStage.execute th t input).2 = Except.error err) ∨
        (TotalDifficultyStage.execute th t input).2 = Except.ok ⟨!capped, e⟩) ∧
    (∀ (rs : Tx → Option Address) (bs th : Nat) (t : Tables) (input : ExecInput)
        (s e : Nat) (capped : Bool) (sb ebody : StoredBlockBody),
      exec_or_return input th = ExecAction.run s e capped →
      get_block_body_by_num t s = Except.ok sb →
      get_block_body_by_num t e = Except.ok ebody →
      (ebody.last_tx_index < sb.startTxId →
        SenderRecoveryStage.execute rs bs th t input = (t, Except.ok ⟨true, e⟩)) ∧
      (sb.startTxId ≤ ebody.last_tx_index →
        (∃ err, (SenderRecoveryStage.execute rs bs th t input).2 = Except.error err) ∨
          (SenderRecoveryStage.execute rs bs th t input).2 = Except.ok ⟨!capped, e⟩)) ∧
    ((TotalDifficultyStage.execute 50 c3Tables ⟨some 100, some 0⟩).2
        = Except.ok ⟨false, 50⟩ ∧
      (TotalDifficultyStage.execute 50
          (TotalDifficultyStage.execute 50 c3Tables ⟨some 100, some 0⟩).1
          ⟨some 100, some 50⟩).2 = Except.ok ⟨true, 100⟩) := by
  refine ⟨?_, ?_, ?_, ?_, ?_, by decide, by decide⟩
  · intro th t input h
    simp [TotalDifficultyStage.execute, TotalDifficultyStage.executeE, exec_or_return, h]
  · intro rs bs th t input h
    simp [SenderRecoveryStage.execute, SenderRecoveryStage.executeE, exec_or_return, h]
  · intro input th h
    simp [exec_or_return, Nat.not_le.mpr h]
  · intro th t input s e capped hact
    exact td_run_output_law th t input s e capped hact
  · intro rs bs th t input s e capped sb ebody hact hsb heb
    exact sr_run_output_law rs bs th t input s e capped sb ebody hact hsb heb

/-- C3 witness: the immediate-return contract at previous progress 3 and
stage progress 7 for both stages; the range computation at a gap of 10
with threshold 4; the TotalDifficulty done law on the ten-header run; and
the SenderRecovery law on the capped empty-blocks run (blocks 1..50 of
c3EmptyTables, whose bodies are ⟨5, 0⟩, so the early done = true return
fires). -/
theorem exec_or_return_contract_amended_witness :
    ((3 : Nat) ≤ 7 ∧
      TotalDifficultyStage.execute 5 c4Tables ⟨some 3, some 7⟩
        = (c4Tables, Except.ok ⟨true, 7⟩) ∧
      SenderRecoveryStage.execute rsDemo 2 5 c4Tables ⟨some 3, some 7⟩
        = (c4Tables, Except.ok ⟨true, 7⟩)) ∧
    ((0 : Nat) < 10 ∧
      exec_or_return ⟨some 10, some 0⟩ 4 = ExecAction.run 1 (min 10 4) (decide (4 < 10))) ∧
    ((∃ err, (TotalDifficultyStage.execute 100 c1Tables ⟨some 10, some 0⟩).2
        = Except.error err) ∨
      (TotalDifficultyStage.execute 100 c1Tables ⟨some 10, some 0⟩).2
        = Except.ok ⟨!false, 10⟩) ∧
    (((⟨5, 0⟩ : StoredBlockBody).last_tx_index < (⟨5, 0⟩ : StoredBlockBody).startTxId →
        SenderRecoveryStage.execute rsDemo 250000 50 c3EmptyTables ⟨some 100, some 0⟩ =
          (c3EmptyTables, Except.ok ⟨true, 50⟩)) ∧
      ((⟨5, 0⟩ : StoredBlockBody).startTxId ≤ (⟨5, 0⟩ : StoredBlockBody).last_tx_index →
        (∃ err, (SenderRecoveryStage.execute rsDemo 250000 50 c3EmptyTables
            ⟨some 100, some 0⟩).2 = Except.error err) ∨
          (SenderRecoveryStage.execute rsDemo 250000 50 c3EmptyTables
            ⟨some 100, some 0⟩).2 = Except.ok ⟨!true, 50⟩)) :=
  ⟨⟨by decide,
    exec_or_return_contract_amended.1 5 c4Tables ⟨some 3, some 7⟩ (by decide),
    exec_or_return_contract_amended.2.1 rsDemo 2 5 c4Tables ⟨some 3, some 7⟩ (by decide)⟩,
   ⟨by decide, exec_or_return_contract_amended.2.2.1 ⟨some 10, some 0⟩ 4 (by decide)⟩,
   exec_or_return_contract_amended.2.2.2.1 100 c1Tables ⟨some 10, some 0⟩ 1 10 false
     (by decide),
   exec_or_return_contract_amended.2.2.2.2.1 rsDemo 250000 50 c3EmptyTables
     ⟨some 100, some 0⟩ 1 50 true ⟨5, 0⟩ ⟨5, 0⟩ (by decide) (by decide) (by decide)⟩

/-! ### Table lemmas -/

theorem KTable.get_append_of_some {κ V : Type} [DecidableEq κ]
    {t : List (κ × V)} {k : κ} {v : V} (u : List (κ × V))
    (h : KTable.get t k = some v) : KTable.get (t ++ u) k = some v := by
  unfold KTable.get at h ⊢
  rcases hf : List.find? (fun e => decide (e.1 = k)) t with _ | e
  · rw [hf] at h
    simp at h
  · rw [hf] at h
    rw [List.find?_append, hf]
    exact h

theorem KTable.get_append_of_none {κ V : Type} [DecidableEq κ]
    {t : List (κ × V)} {k : κ} (u : List (κ × V))
    (h : KTable.get t k = none) : KTable.get (t ++ u) k = KTable.get u k := by
  unfold KTable.get at h ⊢
  rcases hf : List.find? (fun e => decide (e.1 = k)) t with _ | e
  · rw [List.find?_append, hf]
    rfl
  · rw [hf] at h
    simp at h

theorem KTable.chainAsc_all_lt {κ : Type} (lt : κ → κ → Bool)
    (htr : ∀ a b c, lt a b = true → lt b c = true → lt a c = true) :
    ∀ (ks : List κ) (p : κ), KTable.chainAsc lt (some p) ks = true →
      ∀ k ∈ ks, lt p k = true := by
  intro ks
  induction ks with
  | nil =>
    intro p h k hk
    simp at hk
  | cons a ks ih =>
    intro p h k hk
    unfold KTable.chainAsc at h
    rw [Bool.and_eq_true] at h
    rcases List.mem_cons.mp hk with rfl | hk
    · exact h.1
    · exact htr p a k h.1 (ih a h.2 k hk)

theorem KTable.get_of_chainAsc {κ V : Type} [DecidableEq κ] (lt : κ → κ → Bool)
    (htr : ∀ a b c, lt a b = true → lt b c = true → lt a c = true)
    (hirr : ∀ a, lt a a = false) :
    ∀ (u : List (κ × V)) (o : Option κ),
      KTable.chainAsc lt o (u.map (fun e => e.1)) = true →
      ∀ k v, (k, v) ∈ u → KTable.get u k = some v := by
  intro u
  induction u with
  | nil =>
    intro o h k v hm
    simp at hm
  | cons e u ih =>
    intro o h k v hm
    have hnext : KTable.chainAsc lt (some e.1) (u.map (fun x => x.1)) = true := by
      rcases o with _ | p
      · simpa [KTable.chainAsc] using h
      · have h2 : (lt p e.1 && KTable.chainAsc lt (some e.1)
            (u.map (fun x => x.1))) = true := by
          simpa [KTable.chainAsc] using h
        rw [Bool.and_eq_true] at h2
        exact h2.2
    rcases List.mem_cons.mp hm with heq | hm
    · have : e = (k, v) := heq.symm
      subst this
      simp [KTable.get, List.find?]
    · have hlt : lt e.1 k = true := by
        refine KTable.chainAsc_all_lt lt htr _ e.1 hnext k ?_
        exact List.mem_map.mpr ⟨(k, v), hm, rfl⟩
      have hne : ¬(e.1 = k) := by
        intro hkk
        rw [hkk] at hlt
        rw [hirr k] at hlt
        exact Bool.false_ne_true hlt
      unfold KTable.get
      rw [List.find?]
      rw [decide_eq_false hne]
      exact ih (some e.1) hnext k v hm

theorem nhLt_iff (a b : BlockNumHash) :
    nhLt a b = true ↔ a.1 < b.1 ∨ (a.1 = b.1 ∧ a.2 < b.2) := by
  unfold nhLt
  simp [Bool.or_eq_true, Bool.and_eq_true, beq_iff_eq, decide_eq_true_eq]

theorem nhLt_trans (a b c : BlockNumHash)
    (hab : nhLt a b = true) (hbc : nhLt b c = true) : nhLt a c = true := by
  rw [nhLt_iff] at hab hbc ⊢
  rcases hab with h1 | ⟨h1, h2⟩
  · rcases hbc with h3 | ⟨h3, h4⟩
    · exact Or.inl (Nat.lt_trans h1 h3)
    · exact Or.inl (h3 ▸ h1)
  · rcases hbc with h3 | ⟨h3, h4⟩
    · refine Or.inl ?_
      rw [h1]
      exact h3
    · exact Or.inr ⟨h1.trans h3, Nat.lt_trans h2 h4⟩

theorem nhLt_irrefl (a : BlockNumHash) : nhLt a a = false := by
  unfold nhLt
  simp

theorem txLt_trans (a b c : TxNumber)
    (hab : txLt a b = true) (hbc : txLt b c = true) : txLt a c = true := by
  unfold txLt at hab hbc ⊢
  simp only [decide_eq_true_eq] at hab hbc ⊢
  exact Nat.lt_trans hab hbc

theorem txLt_irrefl (a : TxNumber) : txLt a a = false := by
  unfold txLt
  simp

theorem KTable.lastOf_nil {κ : Type} (o : Option κ) : KTable.lastOf o [] = o := rfl

theorem KTable.lastOf_cons {κ : Type} (o : Option κ) (k : κ) (ks : List κ) :
    KTable.lastOf o (k :: ks) = KTable.lastOf (some k) ks := rfl

theorem KTable.lastKey_concat {κ V : Type} (t : List (κ × V)) (e : κ × V) :
    KTable.lastKey (t ++ [e]) = some e.1 := by
  unfold KTable.lastKey
  rw [List.getLast?_concat]
  rfl

theorem KTable.lastKey_append {κ V : Type} (t u : List (κ × V)) :
    KTable.lastKey (t ++ u) = KTable.lastOf (KTable.lastKey t) (u.map (fun e => e.1)) := by
  induction u generalizing t with
  | nil => simp [KTable.lastOf_nil]
  | cons e u ih =>
    have h1 : t ++ e :: u = (t ++ [e]) ++ u := by simp
    rw [h1, ih (t ++ [e]), KTable.lastKey_concat]
    rw [List.map_cons, KTable.lastOf_cons]

theorem KTable.chainAsc_append {κ : Type} (lt : κ → κ → Bool) :
    ∀ (xs ys : List κ) (o : Option κ),
      KTable.chainAsc lt o (xs ++ ys) =
        (KTable.chainAsc lt o xs && KTable.chainAsc lt (KTable.lastOf o xs) ys) := by
  intro xs
  induction xs with
  | nil =>
    intro ys o
    simp [KTable.chainAsc, KTable.lastOf_nil]
  | cons x xs ih =>
    intro ys o
    rw [KTable.lastOf_cons]
    cases o with
    | none =>
      show KTable.chainAsc lt (some x) (xs ++ ys) = _
      rw [ih ys (some x)]
      rfl
    | some p =>
      show (lt p x && KTable.chainAsc lt (some x) (xs ++ ys)) = _
      rw [ih ys (some x)]
      show _ = ((lt p x && KTable.chainAsc lt (some x) xs) && _)
      rw [Bool.and_assoc]

/-! ### TotalDifficulty stage lemmas -/

theorem sumDifficulty_cons (e : BlockNumHash × Header) (es : List (BlockNumHash × Header)) :
    sumDifficulty (e :: es) = e.2.difficulty + sumDifficulty es := by
  unfold sumDifficulty
  simp

theorem tdLoop_spec :
    ∀ (es : List (BlockNumHash × Header)) (tbl : List (BlockNumHash × U256))
      (prev : BlockNumHash) (td0 : U256),
      KTable.get tbl prev = some td0 →
      KTable.chainAsc nhLt (KTable.lastKey tbl) (es.map (fun e => e.1)) = true →
      (∀ e ∈ es, KTable.get tbl e.1 = none) →
      td0 + sumDifficulty es < U256size →
      TotalDifficultyStage.tdLoop td0 tbl es = Except.ok (tbl ++ tdExtend td0 es) ∧
        tdRecurrence (tbl ++ tdExtend td0 es) prev es := by
  intro es
  induction es with
  | nil =>
    intro tbl prev td0 hprev hasc hnew hbound
    refine ⟨by simp [TotalDifficultyStage.tdLoop, tdExtend], ?_⟩
    simp only [tdExtend, List.append_nil]
    trivial
  | cons e es ih =>
    intro tbl prev td0 hprev hasc hnew hbound
    have htbl : tbl ≠ [] := by
      intro h
      rw [h] at hprev
      simp [KTable.get] at hprev
    obtain ⟨le, hle⟩ : ∃ le, tbl.getLast? = some le := by
      cases h : tbl.getLast? with
      | none => exact absurd (List.getLast?_eq_none_iff.mp h) htbl
      | some le => exact ⟨le, rfl⟩
    have hlk : KTable.lastKey tbl = some le.1 := by
      unfold KTable.lastKey
      rw [hle]
      rfl
    have hasc1 : (nhLt le.1 e.1 &&
        KTable.chainAsc nhLt (some e.1) (es.map (fun x => x.1))) = true := by
      rw [hlk] at hasc
      simpa [KTable.chainAsc] using hasc
    rw [Bool.and_eq_true] at hasc1
    have hd_lt : nhLt le.1 e.1 = true := hasc1.1
    have hasc2 : KTable.chainAsc nhLt (some e.1) (es.map (fun x => x.1)) = true := hasc1.2
    have hnew_e : KTable.get tbl e.1 = none := hnew e (List.mem_cons_self e es)
    have h1 : td0 + e.2.difficulty ≤ td0 + sumDifficulty (e :: es) := by
      rw [sumDifficulty_cons]
      exact Nat.add_le_add_left (Nat.le_add_right _ _) _
    have hsum : td0 + e.2.difficulty < U256size := Nat.lt_of_le_of_lt h1 hbound
    have htd1 : uadd td0 e.2.difficulty = td0 + e.2.difficulty := by
      unfold uadd
      exact Nat.mod_eq_of_lt hsum
    have happend : KTable.append nhLt tbl e.1 (uadd td0 e.2.difficulty) =
        some (tbl ++ [(e.1, uadd td0 e.2.difficulty)]) := by
      unfold KTable.append KTable.lastKeyOk
      rw [hle]
      simp [hd_lt]
    have hget2 : KTable.get (tbl ++ [(e.1, uadd td0 e.2.difficulty)]) e.1 =
        some (uadd td0 e.2.difficulty) := by
      rw [KTable.get_append_of_none _ hnew_e]
      simp [KTable.get, List.find?]
    have hlast2 : KTable.lastKey (tbl ++ [(e.1, uadd td0 e.2.difficulty)]) = some e.1 :=
      KTable.lastKey_concat tbl (e.1, uadd td0 e.2.difficulty)
    have hnew2 : ∀ x ∈ es,
        KTable.get (tbl ++ [(e.1, uadd td0 e.2.difficulty)]) x.1 = none := by
      intro x hx
      have hxlt : nhLt e.1 x.1 = true := by
        refine KTable.chainAsc_all_lt nhLt nhLt_trans _ e.1 hasc2 x.1 ?_
        exact List.mem_map.mpr ⟨x, hx, rfl⟩
      have hne : ¬(e.1 = x.1) := by
        intro hkk
        rw [hkk] at hxlt
        rw [nhLt_irrefl x.1] at hxlt
        exact Bool.false_ne_true hxlt
      rw [KTable.get_append_of_none _ (hnew x (List.mem_cons_of_mem e hx))]
      simp [KTable.get, List.find?, hne]
    have hbound2 : uadd td0 e.2.difficulty + sumDifficulty es < U256size := by
      rw [htd1]
      rw [sumDifficulty_cons] at hbound
      rw [Nat.add_assoc]
      exact hbound
    obtain ⟨hloop2, hrec2⟩ := ih (tbl ++ [(e.1, uadd td0 e.2.difficulty)]) e.1
      (uadd td0 e.2.difficulty) hget2 (by rw [hlast2]; exact hasc2) hnew2 hbound2
    have hFeq : tbl ++ tdExtend td0 (e :: es) =
        (tbl ++ [(e.1, uadd td0 e.2.difficulty)]) ++ tdExtend (uadd td0 e.2.difficulty) es := by
      show tbl ++ ((e.1, uadd td0 e.2.difficulty) :: tdExtend (uadd td0 e.2.difficulty) es) = _
      rw [List.append_cons]
    refine ⟨?_, ?_⟩
    · show TotalDifficultyStage.tdLoop td0 tbl (e :: es) = _
      unfold TotalDifficultyStage.tdLoop
      rw [happend]
      rw [hFeq]
      exact hloop2
    · show tdRecurrence (tbl ++ tdExtend td0 (e :: es)) prev (e :: es)
      unfold tdRecurrence
      rw [hFeq]
      refine ⟨⟨td0, ?_, ?_⟩, hrec2⟩
      · exact KTable.get_append_of_some _
          (KTable.get_append_of_some _ hprev)
      · rw [← htd1]
        exact KTable.get_append_of_some _ hget2

/-- C1: when TotalDifficultyStage::execute runs over a nonempty block range
with an existing HeaderTD seed at the input stage progress, on fresh,
strictly ascending canonical keys (and with the running sums below 2^256),
it succeeds at the range end with done tracking the commit cap, appending
exactly the running sums of the walked difficulties; the stored entries
then satisfy the recurrence HeaderTD(k_n) = HeaderTD(k_(n-1)) + difficulty_n
along the walked chain seeded at the stage-progress entry. -/
theorem td_execute_total_difficulty_recurrence
    (th : Nat) (t : Tables) (input : ExecInput) (s eb : Nat) (capped : Bool)
    (seedKey startKey : BlockNumHash) (td0 : U256) (es : List (BlockNumHash × Header))
    (hact : exec_or_return input th = ExecAction.run s eb capped)
    (hseedKey : get_block_numhash t (input.stageProgress.getD 0) = Except.ok seedKey)
    (hseed : KTable.get t.headerTD seedKey = some td0)
    (hstart : get_block_numhash t s = Except.ok startKey)
    (hwalk : (walkHeaders t.headers startKey).takeWhile
        (fun e => decide (e.2.number ≤ eb)) = es)
    (hasc : KTable.chainAsc nhLt (KTable.lastKey t.headerTD)
        (es.map (fun e => e.1)) = true)
    (hnew : ∀ e ∈ es, KTable.get t.headerTD e.1 = none)
    (hbound : td0 + sumDifficulty es < U256size) :
    TotalDifficultyStage.execute th t input =
      ({ t with headerTD := t.headerTD ++ tdExtend td0 es }, Except.ok ⟨!capped, eb⟩) ∧
      tdRecurrence (t.headerTD ++ tdExtend td0 es) seedKey es := by
  obtain ⟨hloop, hrec⟩ := tdLoop_spec es t.headerTD seedKey td0 hseed hasc hnew hbound
  refine ⟨?_, hrec⟩
  unfold TotalDifficultyStage.execute TotalDifficultyStage.executeE
  rw [hact, hseedKey]
  simp only [hseed]
  rw [hstart]
  simp only [hwalk, hloop]

/-- C1 witness: seeding block 0 with total difficulty 1000 and appending
ten headers of difficulty one, the stage succeeds, the recurrence holds
along the ten appended entries, and the entry at the tail block 10 stores
1000 + 10 (the values are seed + 1, ..., seed + 10). -/
theorem td_execute_total_difficulty_recurrence_witness :
    exec_or_return ⟨some 10, some 0⟩ 100 = ExecAction.run 1 10 false ∧
    (TotalDifficultyStage.execute 100 c1Tables ⟨some 10, some 0⟩ =
        ({ c1Tables with headerTD := c1Tables.headerTD ++ tdExtend 1000 c1Es },
          Except.ok ⟨true, 10⟩) ∧
      tdRecurrence (c1Tables.headerTD ++ tdExtend 1000 c1Es) (0, 100) c1Es) ∧
    KTable.get (c1Tables.headerTD ++ tdExtend 1000 c1Es) (10, 110) = some 1010 ∧
    KTable.get (c1Tables.headerTD ++ tdExtend 1000 c1Es) (1, 101) = some 1001 :=
  ⟨by decide,
   td_execute_total_difficulty_recurrence 100 c1Tables ⟨some 10, some 0⟩ 1 10 false
     (0, 100) (1, 101) 1000 c1Es (by decide) (by decide) (by decide) (by decide)
     (by decide) (by decide) (by decide) (by decide),
   by decide, by decide⟩

/-! ### SenderRecovery stage lemmas -/

theorem chunksOf_flatten {α : Type} (n : Nat) : ∀ l : List α, (chunksOf n l).flatten = l
  | [] => by simp [chunksOf]
  | a :: l => by
    rw [chunksOf]
    rw [List.flatten_cons]
    rw [chunksOf_flatten n (l.drop (n - 1))]
    rw [List.cons_append]
    rw [List.take_append_drop]
termination_by l => l.length
decreasing_by simp [List.length_drop]; omega

theorem recoverChunk_ok (rs : Tx → Option Address) (σ : TxNumber → Address) :
    ∀ chunk : List (TxNumber × Tx), (∀ e ∈ chunk, rs e.2 = some (σ e.1)) →
      SenderRecoveryStage.recoverChunk rs chunk =
        Except.ok (chunk.map (fun e => (e.1, σ e.1))) := by
  intro chunk
  induction chunk with
  | nil =>
    intro h
    rfl
  | cons e c ih =>
    intro h
    unfold SenderRecoveryStage.recoverChunk at ih ⊢
    rw [List.mapM_cons]
    rw [h e (List.mem_cons_self e c)]
    rw [ih (fun x hx => h x (List.mem_cons_of_mem e hx))]
    rfl

theorem recoverChunk_keys (rs : Tx → Option Address) :
    ∀ chunk : List (TxNumber × Tx), (∀ e ∈ chunk, (rs e.2).isSome = true) →
      ∃ out, SenderRecoveryStage.recoverChunk rs chunk = Except.ok out ∧
        out.map (fun e => e.1) = chunk.map (fun e => e.1) := by
  intro chunk
  induction chunk with
  | nil =>
    intro h
    exact ⟨[], rfl, rfl⟩
  | cons e c ih =>
    intro h
    obtain ⟨v, hv⟩ := Option.isSome_iff_exists.mp (h e (List.mem_cons_self e c))
    obtain ⟨out, hout, hkeys⟩ := ih (fun x hx => h x (List.mem_cons_of_mem e hx))
    refine ⟨(e.1, v) :: out, ?_, ?_⟩
    · unfold SenderRecoveryStage.recoverChunk at hout ⊢
      rw [List.mapM_cons, hv, hout]
      rfl
    · simp only [List.map_cons]
      rw [hkeys]

theorem recoverChunk_err (rs : Tx → Option Address) :
    ∀ (c1 : List (TxNumber × Tx)) (x0 : TxNumber × Tx) (c2 : List (TxNumber × Tx)),
      (∀ e ∈ c1, (rs e.2).isSome = true) → rs x0.2 = none →
      SenderRecoveryStage.recoverChunk rs (c1 ++ x0 :: c2) =
        Except.error (StageError.fatalSenderRecovery x0.1) := by
  intro c1
  induction c1 with
  | nil =>
    intro x0 c2 h1 h0
    unfold SenderRecoveryStage.recoverChunk
    rw [List.nil_append, List.mapM_cons, h0]
    rfl
  | cons a c1 ih =>
    intro x0 c2 h1 h0
    obtain ⟨v, hv⟩ := Option.isSome_iff_exists.mp (h1 a (List.mem_cons_self a c1))
    unfold SenderRecoveryStage.recoverChunk at ih ⊢
    rw [List.cons_append, List.mapM_cons, hv]
    rw [ih x0 c2 (fun x hx => h1 x (List.mem_cons_of_mem a hx)) h0]
    rfl

theorem KTable.chainAsc_cons_tail {κ : Type} (lt : κ → κ → Bool)
    (o : Option κ) (k : κ) (ks : List κ)
    (h : KTable.chainAsc lt o (k :: ks) = true) :
    KTable.chainAsc lt (some k) ks = true := by
  cases o with
  | none => simpa [KTable.chainAsc] using h
  | some p =>
    have h2 : (lt p k && KTable.chainAsc lt (some k) ks) = true := by
      simpa [KTable.chainAsc] using h
    rw [Bool.and_eq_true] at h2
    exact h2.2

theorem KTable.lastKeyOk_of_chainAsc {κ V : Type} (lt : κ → κ → Bool)
    (tbl : List (κ × V)) (k : κ) (ks : List κ)
    (h : KTable.chainAsc lt (KTable.lastKey tbl) (k :: ks) = true) :
    KTable.lastKeyOk lt tbl k = true := by
  unfold KTable.lastKeyOk
  cases hl : tbl.getLast? with
  | none => rfl
  | some le =>
    have hlk : KTable.lastKey tbl = some le.1 := by
      unfold KTable.lastKey
      rw [hl]
      rfl
    rw [hlk] at h
    have h2 : (lt le.1 k && KTable.chainAsc lt (some k) ks) = true := by
      simpa [KTable.chainAsc] using h
    rw [Bool.and_eq_true] at h2
    exact h2.1

theorem appendSenders_ok :
    ∀ (entries tbl : List (TxNumber × Address)),
      KTable.chainAsc txLt (KTable.lastKey tbl) (entries.map (fun e => e.1)) = true →
      SenderRecoveryStage.appendSenders tbl entries = Except.ok (tbl ++ entries) := by
  intro entries
  induction entries with
  | nil =>
    intro tbl h
    simp [SenderRecoveryStage.appendSenders]
  | cons e rest ih =>
    intro tbl h
    rw [List.map_cons] at h
    have hok : KTable.lastKeyOk txLt tbl e.1 = true :=
      KTable.lastKeyOk_of_chainAsc txLt tbl e.1 (rest.map (fun x => x.1)) h
    have htail : KTable.chainAsc txLt (KTable.lastKey (tbl ++ [e]))
        (rest.map (fun x => x.1)) = true := by
      rw [KTable.lastKey_concat]
      exact KTable.chainAsc_cons_tail txLt _ e.1 _ h
    unfold SenderRecoveryStage.appendSenders
    unfold KTable.append
    rw [hok]
    simp only [if_true]
    rw [ih (tbl ++ [e]) htail]
    simp

theorem srLoop_ok (rs : Tx → Option Address) (σ : TxNumber → Address) :
    ∀ (chunks : List (List (TxNumber × Tx))) (tbl : List (TxNumber × Address)),
      (∀ e ∈ chunks.flatten, rs e.2 = some (σ e.1)) →
      KTable.chainAsc txLt (KTable.lastKey tbl)
        (chunks.flatten.map (fun e => e.1)) = true →
      SenderRecoveryStage.srLoop rs tbl chunks =
        Except.ok (tbl ++ chunks.flatten.map (fun e => (e.1, σ e.1))) := by
  intro chunks
  induction chunks with
  | nil =>
    intro tbl h1 h2
    simp [SenderRecoveryStage.srLoop]
  | cons c rest ih =>
    intro tbl h1 h2
    rw [List.flatten_cons] at h1 h2 ⊢
    have hrc := recoverChunk_ok rs σ c
      (fun e he => h1 e (List.mem_append_left _ he))
    rw [List.map_append, KTable.chainAsc_append, Bool.and_eq_true] at h2
    have hkeys : (c.map (fun e => (e.1, σ e.1))).map (fun e => e.1) =
        c.map (fun e => e.1) := by
      simp
    have hap := appendSenders_ok (c.map (fun e => (e.1, σ e.1))) tbl
      (by rw [hkeys]; exact h2.1)
    have htail : KTable.chainAsc txLt
        (KTable.lastKey (tbl ++ c.map (fun e => (e.1, σ e.1))))
        (rest.flatten.map (fun e => e.1)) = true := by
      rw [KTable.lastKey_append, hkeys]
      exact h2.2
    unfold SenderRecoveryStage.srLoop
    simp only [hrc, hap]
    rw [ih (tbl ++ c.map (fun e => (e.1, σ e.1)))
      (fun e he => h1 e (List.mem_append_right _ he)) htail]
    simp

theorem srLoop_err (rs : Tx → Option Address) :
    ∀ (chunks : List (List (TxNumber × Tx))) (tbl : List (TxNumber × Address))
      (l1 : List (TxNumber × Tx)) (x0 : TxNumber × Tx) (l2 : List (TxNumber × Tx)),
      chunks.flatten = l1 ++ x0 :: l2 →
      (∀ e ∈ l1, (rs e.2).isSome = true) → rs x0.2 = none →
      KTable.chainAsc txLt (KTable.lastKey tbl) (l1.map (fun e => e.1)) = true →
      SenderRecoveryStage.srLoop rs tbl chunks =
        Except.error (StageError.fatalSenderRecovery x0.1) := by
  intro chunks
  induction chunks with
  | nil =>
    intro tbl l1 x0 l2 hj h1 h0 hasc
    exfalso
    rw [List.flatten_nil] at hj
    exact List.cons_ne_nil x0 l2 (List.append_eq_nil.mp hj.symm).2
  | cons c rest ih =>
    intro tbl l1 x0 l2 hj h1 h0 hasc
    rw [List.flatten_cons] at hj
    rcases List.append_eq_append_iff.mp hj with ⟨a2, hl1, hr⟩ | ⟨c2, hc, hr⟩
    · -- the whole chunk lies inside the recovering prefix l1
      subst hl1
      obtain ⟨out, hout, hkeys⟩ := recoverChunk_keys rs c
        (fun e he => h1 e (List.mem_append_left _ he))
      rw [List.map_append, KTable.chainAsc_append, Bool.and_eq_true] at hasc
      have hap := appendSenders_ok out tbl (by rw [hkeys]; exact hasc.1)
      have htail : KTable.chainAsc txLt (KTable.lastKey (tbl ++ out))
          (a2.map (fun e => e.1)) = true := by
        rw [KTable.lastKey_append, hkeys]
        exact hasc.2
      unfold SenderRecoveryStage.srLoop
      simp only [hout, hap]
      exact ih (tbl ++ out) a2 x0 l2 hr
        (fun e he => h1 e (List.mem_append_right _ he)) h0 htail
    · -- the failing transaction lies inside this chunk, or the chunk is l1
      cases c2 with
      | nil =>
        rw [List.append_nil] at hc
        subst hc
        rw [List.nil_append] at hr
        obtain ⟨out, hout, hkeys⟩ := recoverChunk_keys rs c h1
        have hap := appendSenders_ok out tbl (by rw [hkeys]; exact hasc)
        unfold SenderRecoveryStage.srLoop
        simp only [hout, hap]
        exact ih (tbl ++ out) [] x0 l2 hr.symm (by simp) h0
          (by simp [KTable.chainAsc])
      | cons y c2 =>
        rw [List.cons_append] at hr
        have hy : x0 = y := (List.cons_eq_cons.mp hr).1
        have hl2 : l2 = c2 ++ rest.flatten := (List.cons_eq_cons.mp hr).2
        subst hy
        subst hc
        unfold SenderRecoveryStage.srLoop
        simp only [recoverChunk_err rs l1 x0 c2 h1 h0]

/-- C4: over a nonempty block range whose transactions all recover,
SenderRecoveryStage::execute succeeds at the range end, appending the
recovered (transaction id, sender) pairs in strictly increasing id order
through the append-only cursor, and afterwards TxSenders at every walked
transaction id equals recover_signer of that transaction; and when every
transaction before some failing one recovers but recover_signer fails on
it, execute returns the fatal stage error naming that transaction id and
the tables are unchanged. -/
theorem sr_execute_recovers_senders :
    (∀ (rs : Tx → Option Address) (σ : TxNumber → Address) (bs th : Nat)
       (t : Tables) (input : ExecInput) (s eb : Nat) (capped : Bool)
       (sb ebody : StoredBlockBody) (es : List (TxNumber × Tx)),
      exec_or_return input th = ExecAction.run s eb capped →
      get_block_body_by_num t s = Except.ok sb →
      get_block_body_by_num t eb = Except.ok ebody →
      sb.startTxId ≤ ebody.last_tx_index →
      walk_range_tx t.transactions sb.startTxId (ebody.last_tx_index + 1) = es →
      (∀ e ∈ es, rs e.2 = some (σ e.1)) →
      KTable.chainAsc txLt (KTable.lastKey t.txSenders)
        (es.map (fun e => e.1)) = true →
      (∀ e ∈ es, KTable.get t.txSenders e.1 = none) →
      SenderRecoveryStage.execute rs bs th t input =
        ({ t with txSenders := t.txSenders ++ es.map (fun e => (e.1, σ e.1)) },
          Except.ok ⟨!capped, eb⟩) ∧
        (∀ e ∈ es, KTable.get
          (t.txSenders ++ es.map (fun x => (x.1, σ x.1))) e.1 = rs e.2)) ∧
    (∀ (rs : Tx → Option Address) (bs th : Nat) (t : Tables) (input : ExecInput)
       (s eb : Nat) (capped : Bool) (sb ebody : StoredBlockBody)
       (l1 : List (TxNumber × Tx)) (x0 : TxNumber × Tx) (l2 : List (TxNumber × Tx)),
      exec_or_return input th = ExecAction.run s eb capped →
      get_block_body_by_num t s = Except.ok sb →
      get_block_body_by_num t eb = Except.ok ebody →
      sb.startTxId ≤ ebody.last_tx_index →
      walk_range_tx t.transactions sb.startTxId (ebody.last_tx_index + 1) =
        l1 ++ x0 :: l2 →
      (∀ e ∈ l1, (rs e.2).isSome = true) → rs x0.2 = none →
      KTable.chainAsc txLt (KTable.lastKey t.txSenders)
        (l1.map (fun e => e.1)) = true →
      SenderRecoveryStage.execute rs bs th t input =
        (t, Except.error (StageError.fatalSenderRecovery x0.1))) := by
  constructor
  · intro rs σ bs th t input s eb capped sb ebody es hact hsb heb hle hwalk hσ hasc hnew
    have hflat : (chunksOf bs es).flatten = es := chunksOf_flatten bs es
    have hloop := srLoop_ok rs σ (chunksOf bs es) t.txSenders
      (by rw [hflat]; exact hσ) (by rw [hflat]; exact hasc)
    rw [hflat] at hloop
    constructor
    · unfold SenderRecoveryStage.execute SenderRecoveryStage.executeE
      rw [hact]
      simp only [hsb, heb]
      rw [if_neg (Nat.not_lt.mpr hle)]
      simp only [hwalk, hloop]
    · intro e he
      have hmem : (e.1, σ e.1) ∈ es.map (fun x => (x.1, σ x.1)) :=
        List.mem_map.mpr ⟨e, he, rfl⟩
      have hkeys : (es.map (fun x => (x.1, σ x.1))).map (fun e => e.1) =
          es.map (fun e => e.1) := by
        simp
      have hget : KTable.get (es.map (fun x => (x.1, σ x.1))) e.1 = some (σ e.1) := by
        refine KTable.get_of_chainAsc txLt txLt_trans txLt_irrefl _
          (KTable.lastKey t.txSenders) ?_ e.1 (σ e.1) hmem
        rw [hkeys]
        exact hasc
      rw [KTable.get_append_of_none _ (hnew e he)]
      rw [hget, hσ e he]
  · intro rs bs th t input s eb capped sb ebody l1 x0 l2 hact hsb heb hle hwalk h1 h0 hasc
    have hloop := srLoop_err rs (chunksOf bs (l1 ++ x0 :: l2)) t.txSenders l1 x0 l2
      (chunksOf_flatten bs _) h1 h0 hasc
    unfold SenderRecoveryStage.execute SenderRecoveryStage.executeE
    rw [hact]
    simp only [hsb, heb]
    rw [if_neg (Nat.not_lt.mpr hle)]
    simp only [hwalk, hloop]

/-- C4 witness: three blocks with five transactions, one sender already
recovered: the run over blocks 1..2 appends senders for ids 1..4 in order
and TxSenders agrees with rsDemo everywhere in the range; with the
signature of transaction 2 corrupted, the same run fails with the fatal
error naming transaction 2 and leaves the tables unchanged. -/
theorem sr_execute_recovers_senders_witness :
    (SenderRecoveryStage.execute rsDemo 2 100 c4Tables ⟨some 2, some 0⟩ =
        ({ c4Tables with txSenders := (c4Tables.txSenders ++
            [(1, 11), (2, 12), (3, 13), (4, 14)].map (fun e => (e.1, e.1 + 1010))) },
          Except.ok ⟨true, 2⟩) ∧
      (∀ e ∈ [(1, 11), (2, 12), (3, 13), (4, 14)], KTable.get
        (c4Tables.txSenders ++ [(1, 11), (2, 12), (3, 13), (4, 14)].map
          (fun x => (x.1, x.1 + 1010))) e.1 = rsDemo e.2)) ∧
    SenderRecoveryStage.execute rsDemo 2 100 c4TablesBad ⟨some 2, some 0⟩ =
      (c4TablesBad, Except.error (StageError.fatalSenderRecovery 2)) :=
  ⟨sr_execute_recovers_senders.1 rsDemo (fun id => id + 1010) 2 100 c4Tables
     ⟨some 2, some 0⟩ 1 2 false ⟨1, 2⟩ ⟨3, 2⟩ [(1, 11), (2, 12), (3, 13), (4, 14)]
     (by decide) (by decide) (by decide) (by decide) (by decide) (by decide)
     (by decide) (by decide),
   sr_execute_recovers_senders.2 rsDemo 2 100 c4TablesBad ⟨some 2, some 0⟩ 1 2 false
     ⟨1, 2⟩ ⟨3, 2⟩ [(1, 11)] (2, 99) [(3, 13), (4, 14)]
     (by decide) (by decide) (by decide) (by decide) (by decide) (by decide)
     (by decide) (by decide)⟩

/-! ### Transactions manager cache lemmas -/

theorem freshPeer_bound : cacheBound freshPeer.transactions := by
  constructor
  · rfl
  · show (0 : Nat) ≤ PEER_TRANSACTION_CACHE_LIMIT
    exact Nat.zero_le _

theorem LruCache.insert_bound (c : LruCache) (h : Hash) (hc : cacheBound c) :
    cacheBound (c.insert h).1 := by
  rcases hc with ⟨hl, hn⟩
  unfold LruCache.insert
  by_cases hmem : h ∈ c.entries
  · rw [if_pos hmem]
    exact ⟨hl, hn⟩
  · rw [if_neg hmem]
    by_cases hlen : c.limit < c.entries.length + 1
    · refine ⟨hl, ?_⟩
      show (if c.limit < c.entries.length + 1 then (h :: c.entries).dropLast
        else h :: c.entries).length ≤ PEER_TRANSACTION_CACHE_LIMIT
      rw [if_pos hlen, List.length_dropLast, List.length_cons]
      simpa using hn
    · refine ⟨hl, ?_⟩
      show (if c.limit < c.entries.length + 1 then (h :: c.entries).dropLast
        else h :: c.entries).length ≤ PEER_TRANSACTION_CACHE_LIMIT
      rw [if_neg hlen, List.length_cons]
      rw [hl] at hlen
      exact Nat.le_of_not_lt hlen

theorem LruCache.insert_limit (c : LruCache) (h : Hash) :
    (c.insert h).1.limit = c.limit := by
  unfold LruCache.insert
  split
  · rfl
  · rfl

theorem LruCache.extendWith_bound (hs : List Hash) :
    ∀ (c : LruCache), cacheBound c → cacheBound (c.extendWith hs) := by
  induction hs with
  | nil =>
    intro c hc
    exact hc
  | cons h rest ih =>
    intro c hc
    show cacheBound (LruCache.extendWith (c.insert h).1 rest)
    exact ih (c.insert h).1 (LruCache.insert_bound c h hc)

theorem countInserts_bound (hs : List Hash) :
    ∀ (c : LruCache), cacheBound c → cacheBound (countInserts c hs).1 := by
  induction hs with
  | nil =>
    intro c hc
    exact hc
  | cons h rest ih =>
    intro c hc
    unfold countInserts
    exact ih (c.insert h).1 (LruCache.insert_bound c h hc)

theorem filterInsert_bound (txs : List (Hash × SignedTx)) :
    ∀ (c : LruCache), cacheBound c → cacheBound (filterInsert c txs).1 := by
  induction txs with
  | nil =>
    intro c hc
    exact hc
  | cons e rest ih =>
    intro c hc
    unfold filterInsert
    exact ih (c.insert e.1).1 (LruCache.insert_bound c e.1 hc)

theorem ingestStep_bound (peer_id : PeerId) (source : TransactionSource)
    (acc : IngestAcc) (tx : SignedTx) (hc : cacheBound acc.cache) :
    cacheBound ((ingestStep peer_id source acc tx).cache) := by
  unfold ingestStep
  cases tx.sender with
  | none => exact hc
  | some a =>
    have hins : cacheBound
        (if source.is_broadcast then acc.cache.insert tx.hash
         else (acc.cache, true)).1 := by
      by_cases hb : source.is_broadcast = true
      · simp only [hb, if_true]
        exact LruCache.insert_bound acc.cache tx.hash hc
      · simp only [hb, if_false]
        exact hc
    cases KTable.get acc.byPeers tx.hash with
    | some ps => exact hins
    | none => exact hins

theorem ingest_foldl_bound (peer_id : PeerId) (source : TransactionSource)
    (txs : List SignedTx) :
    ∀ (acc : IngestAcc), cacheBound acc.cache →
      cacheBound ((txs.foldl (ingestStep peer_id source) acc).cache) := by
  induction txs with
  | nil =>
    intro acc hc
    exact hc
  | cons tx rest ih =>
    intro acc hc
    rw [List.foldl_cons]
    exact ih (ingestStep peer_id source acc tx)
      (ingestStep_bound peer_id source acc tx hc)

theorem setPeer_ok (peers : List (PeerId × Peer)) (p : PeerId) (v : Peer)
    (hok : ∀ e ∈ peers, cacheBound e.2.transactions)
    (hv : cacheBound v.transactions) :
    ∀ e ∈ setPeer peers p v, cacheBound e.2.transactions := by
  intro e he
  unfold setPeer at he
  obtain ⟨x, hx, hxe⟩ := List.mem_map.mp he
  by_cases hxp : x.1 = p
  · rw [if_pos hxp] at hxe
    rw [← hxe]
    exact hv
  · rw [if_neg hxp] at hxe
    rw [← hxe]
    exact hok x hx

theorem propagateLoop_bound (max_num_full : Nat) (txs : List (Hash × SignedTx)) :
    ∀ (peers : List (PeerId × Peer)) (idx : Nat),
      (∀ e ∈ peers, cacheBound e.2.transactions) →
      ∀ e ∈ (propagateLoop max_num_full idx peers txs).1,
        cacheBound e.2.transactions := by
  intro peers
  induction peers with
  | nil =>
    intro idx hok e he
    simp [propagateLoop] at he
  | cons q rest ih =>
    intro idx hok e he
    unfold propagateLoop at he
    rcases List.mem_cons.mp he with rfl | he2
    · exact filterInsert_bound txs q.2.transactions
        (hok q (List.mem_cons_self q rest))
    · exact ih (idx + 1) (fun x hx => hok x (List.mem_cons_of_mem q hx)) e he2

theorem getPeer_mem (st : TxManager) (p : PeerId) (peer : Peer)
    (h : getPeer st p = some peer) : (p, peer) ∈ st.peers := by
  unfold getPeer KTable.get at h
  rcases hf : st.peers.find? (fun e => decide (e.1 = p)) with _ | e
  · rw [hf] at h
    simp at h
  · rw [hf] at h
    have hmem := List.mem_of_find?_eq_some hf
    have hp := List.find?_some hf
    simp only [decide_eq_true_eq] at hp
    have he2 : e.2 = peer := by
      simpa using h
    have : (p, peer) = e := by
      rcases e with ⟨e1, e2⟩
      simp only at hp he2
      rw [hp, he2]
    rw [this]
    exact hmem

theorem cacheOk_on_get_pooled (st : TxManager) (p : PeerId) (req : List Hash)
    (hok : cacheOk st) : cacheOk (on_get_pooled_transactions st p req).1 := by
  unfold on_get_pooled_transactions
  cases hp : getPeer st p with
  | none => exact hok
  | some peer =>
    intro e he
    refine setPeer_ok st.peers p _ hok ?_ e he
    exact LruCache.extendWith_bound _ peer.transactions
      (hok (p, peer) (getPeer_mem st p peer hp))

theorem cacheOk_on_incoming (st : TxManager) (p : PeerId) (txs : List SignedTx)
    (src : TransactionSource) (hok : cacheOk st) :
    cacheOk (on_incoming_transactions st p txs src).1 := by
  unfold on_incoming_transactions
  by_cases hs : st.syncing = true
  · rw [if_pos hs]
    exact hok
  · rw [if_neg hs]
    cases hp : getPeer st p with
    | none => exact hok
    | some peer =>
      intro e he
      refine setPeer_ok st.peers p _ hok ?_ e he
      exact ingest_foldl_bound p src txs
        ⟨peer.transactions, st.transactionsByPeers, st.poolImports, false, 0⟩
        (hok (p, peer) (getPeer_mem st p peer hp))

theorem cacheOk_on_hashes (st : TxManager) (p : PeerId) (msg : List Hash)
    (hok : cacheOk st) : cacheOk (on_new_pooled_transaction_hashes st p msg).1 := by
  unfold on_new_pooled_transaction_hashes
  by_cases hs : st.syncing = true
  · rw [if_pos hs]
    exact hok
  · rw [if_neg hs]
    cases hp : getPeer st p with
    | none => exact hok
    | some peer =>
      dsimp only
      split
      · intro e he
        exact setPeer_ok st.peers p _ hok
          (countInserts_bound msg peer.transactions
            (hok (p, peer) (getPeer_mem st p peer hp))) e he
      · intro e he
        exact setPeer_ok st.peers p _ hok
          (countInserts_bound msg peer.transactions
            (hok (p, peer) (getPeer_mem st p peer hp))) e he

theorem cacheOk_on_new_transactions (st : TxManager) (hs : List Hash)
    (hok : cacheOk st) : cacheOk (on_new_transactions st hs).1 := by
  unfold on_new_transactions
  by_cases hsy : st.syncing = true
  · rw [if_pos hsy]
    exact hok
  · rw [if_neg hsy]
    unfold propagate_transactions
    intro e he
    exact propagateLoop_bound _ _ st.peers 0 hok e he

theorem cacheOk_on_network_event (st : TxManager) (ev : NetworkEvent)
    (hok : cacheOk st) : cacheOk (on_network_event st ev).1 := by
  unfold on_network_event
  cases ev with
  | sessionClosed p =>
    intro e he
    exact hok e (List.mem_of_mem_filter he)
  | sessionEstablished p =>
    have hst2 : cacheOk { st with peers := (st.peers.filter (fun e => e.1 != p)
        ++ [(p, ⟨⟨[], PEER_TRANSACTION_CACHE_LIMIT⟩⟩)]) } := by
      intro e he
      rcases List.mem_append.mp he with h1 | h2
      · exact hok e (List.mem_of_mem_filter h1)
      · have he2 : e = (p, ⟨⟨[], PEER_TRANSACTION_CACHE_LIMIT⟩⟩) := by
          simpa using h2
        rw [he2]
        exact freshPeer_bound
    dsimp only
    split
    · exact hst2
    · exact hst2

theorem sessionEstablished_fresh (st : TxManager) (p : PeerId) :
    getPeer (on_network_event st (NetworkEvent.sessionEstablished p)).1 p
      = some freshPeer := by
  unfold on_network_event getPeer
  have key : KTable.get (st.peers.filter (fun e => e.1 != p)
      ++ [(p, ⟨⟨[], PEER_TRANSACTION_CACHE_LIMIT⟩⟩)]) p = some freshPeer := by
    have hnone : KTable.get (st.peers.filter (fun e => e.1 != p)) p = none := by
      unfold KTable.get
      have hf : (st.peers.filter (fun e => e.1 != p)).find?
          (fun e => decide (e.1 = p)) = none := by
        rw [List.find?_eq_none]
        intro x hx
        have hxp := List.of_mem_filter hx
        rw [bne_iff_ne] at hxp
        simp [hxp]
      rw [hf]
      rfl
    rw [KTable.get_append_of_none _ hnone]
    simp [KTable.get, List.find?, freshPeer]
  dsimp only
  split
  · exact key
  · exact key

/-- C9: for every connected peer, at every point in the manager execution
reachable by its handlers, the per-peer seen set has the fixed capacity
PEER_TRANSACTION_CACHE_LIMIT = 10240 and never more than that many entries:
the invariant is preserved by every event handler (all of which mutate the
sets only through the bound-preserving LRU insert and extend), and a newly
established session is created with an empty seen set of exactly that
capacity. -/
theorem peer_cache_bound_invariant (st : TxManager) (hok : cacheOk st) :
    (∀ ev, cacheOk (on_network_event st ev).1) ∧
    (∀ ev, cacheOk (on_network_tx_event st ev).1) ∧
    (∀ hs, cacheOk (on_new_transactions st hs).1) ∧
    (∀ p txs src, cacheOk (on_incoming_transactions st p txs src).1) ∧
    (∀ p, getPeer (on_network_event st (NetworkEvent.sessionEstablished p)).1 p
        = some freshPeer ∧
      freshPeer.transactions.limit = PEER_TRANSACTION_CACHE_LIMIT ∧
      freshPeer.transactions.entries.length = 0) := by
  refine ⟨?_, ?_, ?_, ?_, ?_⟩
  · intro ev
    exact cacheOk_on_network_event st ev hok
  · intro ev
    cases ev with
    | incomingTransactions p msg => exact cacheOk_on_incoming st p msg _ hok
    | incomingPooledTransactionHashes p msg => exact cacheOk_on_hashes st p msg hok
    | getPooledTransactions p req => exact cacheOk_on_get_pooled st p req hok
  · intro hs
    exact cacheOk_on_new_transactions st hs hok
  · intro p txs src
    exact cacheOk_on_incoming st p txs src hok
  · intro p
    exact ⟨sessionEstablished_fresh st p, rfl, rfl⟩

/-- C9 witness: the four-peer manager satisfies the invariant; delivering a
broadcast preserves it, and a newly established session for peer 9 carries
an empty seen set with capacity 10240. -/
theorem peer_cache_bound_invariant_witness :
    cacheOk c8State ∧
    cacheOk (on_network_tx_event c8State
      (NetworkTransactionEvent.incomingTransactions 0 [⟨5, some 2⟩])).1 ∧
    getPeer (on_network_event c8State (NetworkEvent.sessionEstablished 9)).1 9
      = some freshPeer :=
  ⟨by unfold cacheOk cacheBound; decide,
   (peer_cache_bound_invariant c8State (by unfold cacheOk cacheBound; decide)).2.1
     (NetworkTransactionEvent.incomingTransactions 0 [⟨5, some 2⟩]),
   ((peer_cache_bound_invariant c8State (by unfold cacheOk cacheBound; decide)).2.2.2.2 9).1⟩
